import Mathlib

/-!
Verification of the row-generation engine of the `sample01` desktop application
(`src-tauri/src/services/generation.rs` and `src-tauri/src/commands/dataset.rs`).

The Rust sources are shallowly embedded: pure string manipulation becomes
functions on `List Char` (Rust `&str` indexing is byte-based; all concrete
inputs used here are ASCII, where the two coincide), machine integers become
`Int`/`Nat` (the counters involved are far below any overflow boundary),
loops become fuel-indexed structural recursions whose fuel provably exceeds
the number of iterations, and the event-emitting worker becomes a function
producing an explicit event trace.
-/

namespace Sample01

/-! ## Basic string utilities mirroring the Rust primitives used by the engine -/

/-- Word characters of the reference regex `@(\w+)` used in
`generation.rs` (`get_column_ref_regex`, `sort_columns_by_dependency`).
The regex crate treats `\w` as letters, digits and underscore; the rules and
names in this development are ASCII, where this is `isAlphanum` or `_`. -/
def isWordChar (c : Char) : Bool := c.isAlphanum || c = '_'

/-- All first-capture groups of `@(\w+)` in left-to-right match order, as
produced by `regex::Regex::captures_iter` in `sort_columns_by_dependency`
(generation.rs:989). Fueled recursion; fuel exceeds the character count, so
the `0` case is unreachable. -/
def extractRefsAux : Nat → List Char → List String
  | 0, _ => []
  | fuel + 1, l =>
    match l with
    | [] => []
    | c :: rest =>
      if c = '@' then
        let run := rest.takeWhile isWordChar
        if run.isEmpty then extractRefsAux fuel rest
        else ⟨run⟩ :: extractRefsAux fuel (rest.drop run.length)
      else extractRefsAux fuel rest

/-- The `@name` captures of a rule string. -/
def extractRefs (s : String) : List String :=
  extractRefsAux (s.data.length + 1) s.data

/-- `Regex::replace_all` for the pattern `@(\w+)`, replacing each match by
`lookupVal` of its capture, as in `prepare_prompt` (generation.rs:919-925). -/
def substRefsAux (lookupVal : String → String) : Nat → List Char → List Char
  | 0, l => l
  | fuel + 1, l =>
    match l with
    | [] => []
    | c :: rest =>
      if c = '@' then
        let run := rest.takeWhile isWordChar
        if run.isEmpty then c :: substRefsAux lookupVal fuel rest
        else (lookupVal ⟨run⟩).data ++
          substRefsAux lookupVal fuel (rest.drop run.length)
      else c :: substRefsAux lookupVal fuel rest

/-- Replace every `@(\w+)` match in `s` by `lookupVal` of the capture. -/
def substColumnRefs (lookupVal : String → String) (s : String) : String :=
  ⟨substRefsAux lookupVal (s.data.length + 1) s.data⟩

/-- Rust `str::replace`: replace every non-overlapping occurrence of `pat`
(nonempty in all uses in the sources) by `rep`, scanning left to right. -/
def replaceAllAux (pat rep : List Char) : Nat → List Char → List Char
  | 0, l => l
  | fuel + 1, l =>
    match l with
    | [] => []
    | c :: rest =>
      if pat.isPrefixOf (c :: rest) && !pat.isEmpty then
        rep ++ replaceAllAux pat rep fuel ((c :: rest).drop pat.length)
      else c :: replaceAllAux pat rep fuel rest

/-- `s.replace(pat, rep)` on strings. -/
def replaceAll (s pat rep : String) : String :=
  ⟨replaceAllAux pat.data rep.data (s.data.length + 1) s.data⟩

/-- Rust `char::is_whitespace` (Unicode `White_Space` property). -/
def rustIsWhitespace (c : Char) : Bool :=
  c.toNat = 0x09 || c.toNat = 0x0A || c.toNat = 0x0B || c.toNat = 0x0C ||
  c.toNat = 0x0D || c.toNat = 0x20 || c.toNat = 0x85 || c.toNat = 0xA0 ||
  c.toNat = 0x1680 || (0x2000 ≤ c.toNat && c.toNat ≤ 0x200A) ||
  c.toNat = 0x2028 || c.toNat = 0x2029 || c.toNat = 0x202F ||
  c.toNat = 0x205F || c.toNat = 0x3000

/-- Rust `str::trim_start`. -/
def trimStartL (l : List Char) : List Char := l.dropWhile rustIsWhitespace

/-- Rust `str::trim_end`. -/
def trimEndL (l : List Char) : List Char := (l.reverse.dropWhile rustIsWhitespace).reverse

/-- Rust `str::trim`. -/
def trimL (l : List Char) : List Char := trimEndL (trimStartL l)

/-- Rust `str::trim` on strings. -/
def rustTrim (s : String) : String := ⟨trimL s.data⟩

/-- Substring search, Rust `str::contains` with a string pattern. -/
def containsSubAux (pat : List Char) : List Char → Bool
  | [] => pat.isEmpty
  | c :: rest => pat.isPrefixOf (c :: rest) || containsSubAux pat rest

/-- `s.contains(pat)` on strings. -/
def strContains (s pat : String) : Bool := containsSubAux pat.data s.data

/-! ## Data model (`services/dataset.rs`) -/

/-- `dataset.rs:61`: a column definition, read-only to the engine. -/
structure Column where
  id : Option Int
  table_name : String
  dataset_id : Int
  name : String
  column_type : String
  column_type_details : Option String
  rules : String
  position : Int
deriving DecidableEq, Inhabited, Repr

/-- `dataset.rs:90`: one cell of a generated row. -/
structure RowData where
  column_id : String
  value : String
deriving DecidableEq, Repr

/-! ## Prompt assembly (`generation.rs:894-970`, `prepare_prompt`) -/

/-- Lookup in the association list built by collecting pairs into a Rust
`HashMap`: on duplicate keys the later insertion wins. -/
def hmLookup (pairs : List (String × String)) (k : String) : Option String :=
  pairs.reverse.lookup k

/-- `column_values` (generation.rs:902-905): cell id to value. -/
def columnValuesMap (row_data : List RowData) : List (String × String) :=
  row_data.map (fun r => (r.column_id, r.value))

/-- `name_to_value` (generation.rs:907-916): column name to prior cell value. -/
def nameToValue (columns : List Column) (row_data : List RowData) :
    List (String × String) :=
  columns.filterMap (fun col =>
    col.id.bind (fun i =>
      (hmLookup (columnValuesMap row_data) (toString i)).map (fun v => (col.name, v))))

/-- `processed_rules` (generation.rs:919-925): every `@(\w+)` match in the
rule is replaced by the referenced prior cell value, or by the empty string
when the name resolves to nothing. -/
def processedRules (columns : List Column) (row_data : List RowData)
    (rule : String) : String :=
  substColumnRefs
    (fun nm => (hmLookup (nameToValue columns row_data) nm).getD "") rule

/-- `CELL_PROMPT_TEMPLATE` as defined and used in `generation.rs:192-201`
(the template in `utils/cell_prompt_template.rs` is not the one referenced
by `prepare_prompt`). -/
def cellPromptTemplate : String :=
  "Generate a \x7bformat\x7d value for column \"\x7bcolumn_name\x7d\".\n\nRule: \x7bcolumn_rule\x7d\n\nCRITICAL: Return ONLY the raw value, nothing else. No explanations, no labels, no markdown, no formatting.\nPerspective: \x7bpersona\x7d\n\n\x7bwords_to_avoid\x7d\n\n\x7breturn\x7d :"

/-- The prompt-template literal claimed by the specification (spec Section 6,
"Prompt template"), transcribed for comparison with the code's template. -/
def specPromptTemplate : String :=
  "<|begin_of_text|><|start_header_id|>system<|end_header_id|>\nYou are a data generator. You must respond with ONLY the requested value. No explanations, no code, no markdown, no extra text.<|eot_id|>\n\n<|start_header_id|>user<|end_header_id|>\nGenerate a \x7bformat\x7d value for column \"\x7bcolumn_name\x7d\".\n\nRule: \x7bcolumn_rule\x7d\n\nCRITICAL:\n- If the rule references other values from the same record, your response MUST be logically consistent with those values\n- Reply with a SINGLE LINE only - no newlines, no extra content\n- Output ONLY the raw value, nothing else\n\n<|eot_id|>\n\n<|start_header_id|>assistant<|end_header_id|>\n"

/-- `words_to_avoid_text` (generation.rs:930-941). -/
def wordsToAvoidText (words phrases : List String) : String :=
  if words.isEmpty && phrases.isEmpty then ""
  else
    "\n\nFor diversity, avoid these:" ++
      (if phrases.isEmpty then ""
       else "\n- Phrases: " ++ String.intercalate ", " phrases) ++
      (if words.isEmpty then ""
       else "\n- Words: " ++ String.intercalate ", " words)

/-- `prepare_prompt` (generation.rs:894-970).  The `word_tracker` argument of
the Rust function only contributes the two avoid-lists, whose internal
ordering comes from `HashMap` iteration; they are taken here as inputs. -/
def preparePrompt (columns : List Column) (for_column : Column)
    (row_data : List RowData) (words phrases : List String)
    (persona : String) : String :=
  let pr := processedRules columns row_data for_column.rules
  let avoid := wordsToAvoidText words phrases
  if for_column.column_type ≠ "JSON" then
    replaceAll (replaceAll (replaceAll (replaceAll (replaceAll (replaceAll
      cellPromptTemplate
      "\x7bpersona\x7d" persona)
      "\x7bcolumn_name\x7d" for_column.name)
      "\x7bcolumn_rule\x7d" pr)
      "\x7bformat\x7d" for_column.column_type)
      "\x7bwords_to_avoid\x7d" avoid)
      "\x7breturn\x7d" "Value"
  else
    replaceAll (replaceAll (replaceAll (replaceAll (replaceAll (replaceAll
      cellPromptTemplate
      "\x7bpersona\x7d" persona)
      "\x7bcolumn_name\x7d" for_column.name)
      "\x7bcolumn_rule\x7d" pr)
      "\x7bformat\x7d" ("well formatted " ++ for_column.column_type ++
        " structure, structure details: " ++
        (for_column.column_type_details.getD "")))
      "\x7bwords_to_avoid\x7d" avoid)
      "\x7breturn\x7d" "Response (JSON only, no other text)"

/-- The five personas of `PersonaManager::new` (generation.rs:209-221). -/
def personaList : List String :=
  ["Balanced/neutral", "Conservative", "Optimist/Maximalist",
   "Contrarian/Outlier", "Pessimist/Minimalist"]

/-! ## Dependency sorter (`generation.rs:972-1029`, `sort_columns_by_dependency`)

The Rust function receives the regex pattern as an argument; the engine and
all its callers pass the literal `@(\w+)`, which always compiles, so the
embedding specializes to that pattern and omits the compile-error path. -/

/-- `name_to_index` (generation.rs:979-983): `(name, index)` pairs collected
into a `HashMap`; on duplicate names the later (larger) index wins. -/
def lookupLastIdx (cols : List Column) (nm : String) : Option Nat :=
  (List.range cols.length).reverse.find?
    (fun i => (cols.getD i default).name == nm)

/-- The dependency edges (generation.rs:988-1001): for each column `i` and
each `@name` capture of its rule resolving to a different column `d`, an
edge `(d, i)` from the dependency to the dependent, with multiplicity, in
the order the nested loops visit them. -/
def colEdges (cols : List Column) : List (Nat × Nat) :=
  (List.range cols.length).flatMap (fun i =>
    (extractRefs (cols.getD i default).rules).filterMap (fun nm =>
      match lookupLastIdx cols nm with
      | some d => if d ≠ i then some (d, i) else none
      | none => none))

/-- `reverse_deps` for one dependency `d`: its dependents in insertion order
(the `Vec` pushed to in generation.rs:995). -/
def revDepsOf (edges : List (Nat × Nat)) (d : Nat) : List Nat :=
  (edges.filter (fun e => e.1 == d)).map (·.2)

/-- The inner loop of Kahn's algorithm (generation.rs:1014-1021): decrement
the in-degree of each dependent of the popped node in sequence, enqueueing a
dependent the moment its in-degree reaches zero. -/
def processDeps : List Nat → (Nat → Int) → List Nat → ((Nat → Int) × List Nat)
  | [], deg, queue => (deg, queue)
  | j :: rest, deg, queue =>
    let deg' := Function.update deg j (deg j - 1)
    let queue' := if deg' j = 0 then queue ++ [j] else queue
    processDeps rest deg' queue'

/-- The outer loop of Kahn's algorithm (generation.rs:1011-1022), popping the
queue front and appending it to the output.  Fueled; since every popped node
is appended to the nodup output (proved below), the loop runs at most
`cols.length` iterations and the fuel passed by `sortIndices` is never
exhausted. -/
def kahnLoop (revDeps : Nat → List Nat) :
    Nat → (Nat → Int) → List Nat → List Nat → List Nat
  | 0, _, _, out => out
  | fuel + 1, deg, queue, out =>
    match queue with
    | [] => out
    | d :: qs =>
      let p := processDeps (revDeps d) deg qs
      kahnLoop revDeps fuel p.1 p.2 (out ++ [d])

/-- The cycle-detection error message (generation.rs:1025). -/
def cycleErrMsg : String := "Circular dependency detected in column rules"

/-- The initial in-degree vector (generation.rs:986-1001): the vector of
`i32` counters built by one increment per edge equals the per-node count of
incoming edges. -/
def initDeg (edges : List (Nat × Nat)) : Nat → Int :=
  fun j => (edges.countP (fun e => e.2 == j) : Int)

/-- The initial queue (generation.rs:1003-1007): the zero-in-degree nodes in
input order. -/
def initQueue (edges : List (Nat × Nat)) (n : Nat) : List Nat :=
  (List.range n).filter (fun i => initDeg edges i == 0)

/-- `sort_columns_by_dependency` at the index level: the list
`sorted_indices` or the cycle error (generation.rs:972-1028). -/
def sortIndices (cols : List Column) : Except String (List Nat) :=
  if cols.isEmpty then .ok []
  else if (kahnLoop (revDepsOf (colEdges cols))
      (cols.length + (colEdges cols).length + 1) (initDeg (colEdges cols))
      (initQueue (colEdges cols) cols.length) []).length = cols.length then
    .ok (kahnLoop (revDepsOf (colEdges cols))
      (cols.length + (colEdges cols).length + 1) (initDeg (colEdges cols))
      (initQueue (colEdges cols) cols.length) [])
  else .error cycleErrMsg

/-- `sort_columns_by_dependency` (generation.rs:1028): the sorted columns. -/
def sortColumnsByDependency (cols : List Column) : Except String (List Column) :=
  (sortIndices cols).map (fun idxs => idxs.map (fun i => cols.getD i default))

/-- The resolvable cross-reference relation between distinct columns:
`edgeRel cols d i` holds when column `i`'s rule references column `d`'s name
(self-references and unresolvable names induce no edge, by `colEdges`). -/
def edgeRel (cols : List Column) (a b : Nat) : Prop := (a, b) ∈ colEdges cols

instance (cols : List Column) (a b : Nat) : Decidable (edgeRel cols a b) := by
  unfold edgeRel; infer_instance

/-- The reference graph has no cycle. -/
def Acyclic (cols : List Column) : Prop :=
  ∀ v, ¬ Relation.TransGen (edgeRel cols) v v

/-! ## Named characters

Quote, backslash, backtick and brace characters are given by code point to
keep the literals unambiguous. -/

def dquoteChar : Char := Char.ofNat 34
def squoteChar : Char := Char.ofNat 39
def backslashChar : Char := Char.ofNat 92
def btickChar : Char := Char.ofNat 96
def openBrace : Char := Char.ofNat 123
def closeBrace : Char := Char.ofNat 125

/-! ## Integer post-processing (`generation.rs:639-659`, `generate_integer`) -/

/-- Rust `char::is_numeric` (true exactly for the Unicode `Number` general
categories Nd, Nl, No).  The full Unicode table is impractical to
transcribe; this development restricts it to the ASCII digits together with
U+00BE (vulgar fraction three quarters, category No — numeric in Rust but
not a digit), the only non-ASCII character any statement below evaluates it
on. -/
def rustIsNumeric (c : Char) : Bool := c.isDigit || c.toNat = 0xBE

/-- The character class collected by the scan loop in `generate_integer`
(generation.rs:650): `c.is_numeric() || c == '.' || c == '-' || c == '+'`. -/
def numericCharRust (c : Char) : Bool :=
  rustIsNumeric c || c = '.' || c = '-' || c = '+'

/-- The character class the specification describes for the same scan:
digit, `.`, `-`, `+`. -/
def claimNumericChar (c : Char) : Bool :=
  c.isDigit || c = '.' || c = '-' || c = '+'

/-- The scan loop of `generate_integer`/`generate_float`
(generation.rs:648-655): push matching characters, and once at least one
has been pushed, stop at the first non-matching character. -/
def numericScan (matcher : Char → Bool) : List Char → List Char → List Char
  | acc, [] => acc
  | acc, c :: rest =>
    if matcher c then numericScan matcher (acc ++ [c]) rest
    else if !acc.isEmpty then acc
    else numericScan matcher acc rest

/-- `numeric_part` as the code computes it. -/
def numericPart (s : String) : List Char := numericScan numericCharRust [] s.data

/-- The numeric run as the specification describes it (digits only as the
numeric class): skip non-matching characters, then take the maximal
matching run. -/
def claimNumericPart (s : String) : List Char :=
  (s.data.dropWhile (fun c => !claimNumericChar c)).takeWhile claimNumericChar

/-- Decimal digit characters to a natural number. -/
def digitsToNat (l : List Char) : Nat :=
  l.foldl (fun a c => 10 * a + (c.toNat - 48)) 0

/-- Rust `f64::from_str` restricted to the strings a numeric run can contain
(runs consist of digits, `.`, `+`, `-`, possibly U+00BE; no exponent or
`inf`/`nan` form is expressible), idealized to exact decimal arithmetic:
accepted inputs are `sign? (digits+ (. digits*)? | . digits+)` and the
result is `(negative, numerator, scale)` with value `numerator / 10^scale`.
The idealization is exact on every value these theorems evaluate. -/
def parseDecimal (l : List Char) : Option (Bool × Nat × Nat) :=
  let core : List Char → Option (Nat × Nat) := fun l1 =>
    let d1 := l1.takeWhile Char.isDigit
    let r1 := l1.drop d1.length
    match r1 with
    | [] => if d1.isEmpty then none else some (digitsToNat d1, 0)
    | '.' :: r2 =>
      let d2 := r2.takeWhile Char.isDigit
      if r2.drop d2.length ≠ [] then none
      else if d1.isEmpty && d2.isEmpty then none
      else some (digitsToNat (d1 ++ d2), d2.length)
    | _ => none
  match l with
  | '-' :: rest => (core rest).map (fun p => (true, p))
  | '+' :: rest => (core rest).map (fun p => (false, p))
  | _ => (core l).map (fun p => (false, p))

/-- Rust `f64::round` (half away from zero) of `numerator / 10^scale`,
signed: the `.round() as i64` step of generation.rs:658. -/
def roundHalfAway (neg : Bool) (num scale : Nat) : Int :=
  let den := 10 ^ scale
  let mag : Nat := (2 * num + den) / (2 * den)
  if neg then -(mag : Int) else (mag : Int)

/-- The full integer post-processing of `generate_integer`
(generation.rs:648-658) applied to a raw response. -/
def intFromResponse (s : String) : Int :=
  match parseDecimal (numericPart s) with
  | some (neg, num, scale) => roundHalfAway neg num scale
  | none => 0

/-- The same post-processing as the specification words it (digit run). -/
def claimIntFromResponse (s : String) : Int :=
  match parseDecimal (claimNumericPart s) with
  | some (neg, num, scale) => roundHalfAway neg num scale
  | none => 0

/-! ## Text cleanup (`generation.rs:1031-1065`, `clean_text_artifacts`) -/

/-- Rust `str::trim_end_matches` with a (nonempty) string pattern:
repeatedly remove the suffix while it matches.  The single-character
variants `trim_end_matches('\n')` / `('\r')` coincide with the one-character
pattern. -/
def trimEndMatchesL (pat : List Char) : Nat → List Char → List Char
  | 0, l => l
  | fuel + 1, l =>
    if pat.isSuffixOf l && !pat.isEmpty then
      trimEndMatchesL pat fuel (l.take (l.length - pat.length))
    else l

/-- Rust `str::trim_start_matches` with a (nonempty) string pattern. -/
def trimStartMatchesL (pat : List Char) : Nat → List Char → List Char
  | 0, l => l
  | fuel + 1, l =>
    if pat.isPrefixOf l && !pat.isEmpty then
      trimStartMatchesL pat fuel (l.drop pat.length)
    else l

/-- One trailing-strip pass: `trim_end_matches(pat)` followed by
`trim_end()`.  The fuel exceeds the maximal number of removals. -/
def trimEndPass (pat : List Char) (l : List Char) : List Char :=
  trimEndL (trimEndMatchesL pat (l.length + 1) l)

/-- One iteration of the trailing-artifact loop (generation.rs:1034-1049):
strip trailing fences, escaped quotes, escape sequences and newlines, each
followed by a whitespace trim. -/
def cleanLoopStep (l : List Char) : List Char :=
  trimEndPass "\r".data (trimEndPass "\\r".data (trimEndPass "\n".data
    (trimEndPass "\\n".data (trimEndPass "\\\"".data
      (trimEndPass "```".data l)))))

/-- The trailing-artifact loop run to its fixed point.  Every non-final
iteration strictly shortens the list, so the fuel `length + 1` used below is
never exhausted. -/
def cleanLoop : Nat → List Char → List Char
  | 0, l => l
  | fuel + 1, l =>
    let l2 := cleanLoopStep l
    if l2 = l then l else cleanLoop fuel l2

/-- The leading-fence strip (generation.rs:1051):
`trim_start_matches("```")` then `trim_start()`. -/
def cleanFenceStartStage (u : List Char) : List Char :=
  trimStartL (trimStartMatchesL "```".data (u.length + 1) u)

/-- The leading escaped-quote strip (generation.rs:1052). -/
def cleanEscqStartStage (v : List Char) : List Char :=
  trimStartL (trimStartMatchesL "\\\"".data (v.length + 1) v)

/-- The quote unwrapping (generation.rs:1054-1062): symmetric double or
single quotes are stripped from both ends (when more than the quote itself
is present), an unmatched leading quote from the front. -/
def cleanQuoteStage (w : List Char) : List Char :=
  if (w.head? = some dquoteChar ∧ w.getLast? = some dquoteChar) ∨
      (w.head? = some squoteChar ∧ w.getLast? = some squoteChar) then
    if 1 < w.length then (w.drop 1).dropLast else w
  else if w.head? = some dquoteChar ∨ w.head? = some squoteChar then
    w.drop 1
  else w

/-- `clean_text_artifacts` (generation.rs:1031-1065) on character lists:
trim, run the trailing-artifact loop to a fixed point, strip leading fences
and escaped quotes, unwrap quotes, and trim. -/
def cleanTextArtifactsL (l : List Char) : List Char :=
  trimL (cleanQuoteStage (cleanEscqStartStage (cleanFenceStartStage
    (cleanLoop ((trimL l).length + 1) (trimL l)))))

/-- `clean_text_artifacts` on strings. -/
def cleanTextArtifacts (s : String) : String := ⟨cleanTextArtifactsL s.data⟩

/-! ## JSON extraction (`generation.rs:682-733`, `generate_json`) -/

/-- Index of the first character satisfying `p`, Rust `str::find`. -/
def firstIdx (p : Char → Bool) : List Char → Option Nat
  | [] => none
  | c :: rest => if p c then some 0 else (firstIdx p rest).map (· + 1)

/-- Index of the last occurrence of `c`, Rust `str::rfind`. -/
def rfindIdx (c : Char) (l : List Char) : Option Nat :=
  (firstIdx (fun x => x == c) l.reverse).map (fun ri => l.length - 1 - ri)

/-- The anchor-and-balance stage of `generate_json` (generation.rs:702-729):
anchor at the first `\x7b` or `[`, slice to the last closer of the matching
kind, and balance by appending missing closers or prepending missing
openers, counting every occurrence of the two bracket characters. -/
def jsonCore (cleaned : List Char) : List Char :=
  match firstIdx (fun c => c == openBrace || c == '[') cleaned with
  | none => cleaned
  | some start =>
    let first := cleaned.getD start ' '
    let lastC := if first = openBrace then closeBrace else ']'
    let tail := cleaned.drop start
    let ext :=
      match rfindIdx lastC tail with
      | some relEnd => tail.take (relEnd + 1)
      | none => tail
    let bal : Int := (ext.count first : Int) - (ext.count lastC : Int)
    if 0 < bal then ext ++ List.replicate bal.toNat lastC
    else if bal < 0 then List.replicate (-bal).toNat first ++ ext
    else ext

/-- The full repair stage on strings: trim, delete fences, trim, anchor. -/
def jsonExtract (s : String) : String :=
  ⟨jsonCore (trimL (replaceAllAux "```".data []
    ((replaceAllAux "```json".data [] ((trimL s.data).length + 1)
      (trimL s.data)).length + 1)
    (replaceAllAux "```json".data [] ((trimL s.data).length + 1)
      (trimL s.data))))⟩

/-- JSON values as produced by the permissive parse in `generate_json`.
Modelled from the spec: the parser is the external `json5` crate (not under
`src/`); the spec prescribes a permissive parse — "trailing commas, unquoted
keys, single quotes allowed".  Number and string tokens are kept in raw
form; the comparisons below involve structurally distinct string values
only. -/
inductive JsonVal
  | jnull
  | jbool (b : Bool)
  | jnum (raw : String)
  | jstr (raw : String)
  | jarr (elems : List JsonVal)
  | jobj (fields : List (String × JsonVal))
deriving Repr

/-- Whitespace skipping of the modelled parser. -/
def skipWs (l : List Char) : List Char := l.dropWhile rustIsWhitespace

/-- Raw contents of a quoted string token: characters up to the closing
quote `q`, an escape keeping the backslash and the escaped character. -/
def parseStrAux (q : Char) : List Char → Option (List Char × List Char)
  | [] => none
  | c :: rest =>
    if c = q then some ([], rest)
    else if c = backslashChar then
      match rest with
      | [] => none
      | e :: rest2 => (parseStrAux q rest2).map (fun p => (c :: e :: p.1, p.2))
    else (parseStrAux q rest).map (fun p => (c :: p.1, p.2))

/-- Characters a number token may contain. -/
def jsonNumChar (c : Char) : Bool :=
  c.isDigit || c = '.' || c = '-' || c = '+' || c = 'e' || c = 'E'

/-- Modelled from the spec: one permissive-JSON value, returning the value
and the unconsumed input.  Array and object tails are parsed by re-entering
on the remainder prefixed with the opening bracket, which also accepts
trailing commas.  Fueled; each re-entry consumes at least one character, so
the fuel `length + 1` used by `json5Parse` is never exhausted. -/
def parseVal : Nat → List Char → Option (JsonVal × List Char)
  | 0, _ => none
  | fuel + 1, input =>
    match skipWs input with
    | [] => none
    | c :: rest =>
      if c = dquoteChar ∨ c = squoteChar then
        (parseStrAux c rest).map (fun p => (.jstr ⟨p.1⟩, p.2))
      else if c = '[' then
        match skipWs rest with
        | ']' :: r2 => some (.jarr [], r2)
        | r =>
          match parseVal fuel r with
          | none => none
          | some (v, r2) =>
            match skipWs r2 with
            | ',' :: r3 =>
              match parseVal fuel ('[' :: r3) with
              | some (.jarr vs, r4) => some (.jarr (v :: vs), r4)
              | _ => none
            | ']' :: r3 => some (.jarr [v], r3)
            | _ => none
      else if c = openBrace then
        match skipWs rest with
        | [] => none
        | k :: kr =>
          if k = closeBrace then some (.jobj [], kr)
          else
            let keyParse : Option (String × List Char) :=
              if k = dquoteChar ∨ k = squoteChar then
                (parseStrAux k kr).map (fun p => (⟨p.1⟩, p.2))
              else
                let run := (k :: kr).takeWhile isWordChar
                if run.isEmpty then none
                else some (⟨run⟩, (k :: kr).drop run.length)
            match keyParse with
            | none => none
            | some (key, r1) =>
              match skipWs r1 with
              | ':' :: r2 =>
                match parseVal fuel r2 with
                | none => none
                | some (v, r3) =>
                  match skipWs r3 with
                  | ',' :: r4 =>
                    match parseVal fuel (openBrace :: r4) with
                    | some (.jobj fs, r5) => some (.jobj ((key, v) :: fs), r5)
                    | _ => none
                  | d :: r4 =>
                    if d = closeBrace then some (.jobj [(key, v)], r4) else none
                  | [] => none
              | _ => none
      else if "true".data.isPrefixOf (c :: rest) then
        some (.jbool true, (c :: rest).drop 4)
      else if "false".data.isPrefixOf (c :: rest) then
        some (.jbool false, (c :: rest).drop 5)
      else if "null".data.isPrefixOf (c :: rest) then
        some (.jnull, (c :: rest).drop 4)
      else
        let run := (c :: rest).takeWhile jsonNumChar
        if run.isEmpty then none
        else some (.jnum ⟨run⟩, (c :: rest).drop run.length)

/-- Modelled from the spec: parse a whole permissive-JSON document. -/
def json5Parse (s : String) : Option JsonVal :=
  match parseVal (s.data.length + 1) s.data with
  | some (v, rest) => if skipWs rest = [] then some v else none
  | none => none

/-! ## Generation session model (`generation.rs:475-525` `generate`,
`commands/dataset.rs:170-301` `generate_rows`)

The worker is modelled as a function producing the ordered list of events it
emits.  Cell generation itself is abstracted (its outputs do not influence
control flow); time is measured in cells completed, and the external cancel
request becomes the instant `cancelAt`: a poll observes the flag set exactly
when at least `cancelAt` cells have completed.  Per-row store failures are
the function `addRowFails`; model/database failures other than the
cancellation check are outside this model. -/

/-- An event emitted to the progress sink: a `generation-status` event with
its status and optional message, or a `generation-progress` event with its
`total_rows_generated` count. -/
inductive GEvent
  | statusEv (st : String) (msg : Option String)
  | progressEv (completed : Nat)
deriving DecidableEq, Repr

/-- The error built by `generate` when the cancel flag is observed
(generation.rs:503-507), displayed through `GenerationError::DatabaseError`
(generation.rs:86). -/
def cancelErrMsg : String := "Database error: Generation cancelled by user"

/-- The terminal-status derivation of `generate_rows`
(dataset.rs:271-275): `cancelled` when the error text contains
`"cancelled"`, else `failed`. -/
def statusOfErr (msg : String) : String :=
  if strContains msg "cancelled" then "cancelled" else "failed"

/-- The row loop of `generate` (generation.rs:502-522) fused with the
progress callback of `generate_rows` (dataset.rs:227-254).  Before each row
the cancel flag is polled; a row runs all its `cells` cells unconditionally
(`generate_row` performs no poll), after which the callback either emits a
`failed` status (when `add_row` fails, continuing the loop) or a progress
event.  Returns the emitted events and whether cancellation was observed. -/
def genRowsLoop (cells cancelAt : Nat) (addRowFails : Nat → Bool)
    (storeMsg : String) : Nat → Nat → List GEvent × Bool
  | 0, _ => ([], false)
  | remaining + 1, i =>
    if cancelAt ≤ i * cells then ([], true)
    else
      let ev := if addRowFails i then GEvent.statusEv "failed" (some storeMsg)
                else GEvent.progressEv (i + 1)
      let p := genRowsLoop cells cancelAt addRowFails storeMsg remaining (i + 1)
      (ev :: p.1, p.2)

/-- The possible outcomes of the blocking `generate` call as observed by the
worker of `generate_rows`: a panic (the `expect` on the sorter result,
generation.rs:492-494), an error return, or success. -/
inductive GenRet
  | panicked
  | retErr (msg : String)
  | retOk
deriving DecidableEq, Repr

/-- The outcome of `generate` (generation.rs:475-525) for a session over
`cols` with `target` rows and cancel instant `cancelAt`. -/
def generateResult (cols : List Column) (target cancelAt : Nat) : GenRet :=
  match sortIndices cols with
  | .error _ => .panicked
  | .ok _ =>
    if (genRowsLoop cols.length cancelAt (fun _ => false) "" target 0).2 then
      .retErr cancelErrMsg
    else .retOk

/-- The full event trace of one `generate_rows` session
(dataset.rs:204-298): a `started` status, then the loop events, then exactly
one of: a `failed` status whose message is `"Task panicked: "` followed by
the join-error text (when the sorter `expect` fired), the
cancelled-or-failed status derived from the returned error, or a `completed`
status. -/
def runGenRows (cols : List Column) (target cancelAt : Nat)
    (addRowFails : Nat → Bool) (storeMsg panicDetail : String) :
    List GEvent :=
  GEvent.statusEv "started" none ::
    match sortIndices cols with
    | .error _ =>
      [GEvent.statusEv "failed" (some ("Task panicked: " ++ panicDetail))]
    | .ok _ =>
      let p := genRowsLoop cols.length cancelAt addRowFails storeMsg target 0
      p.1 ++
        [if p.2 then GEvent.statusEv (statusOfErr cancelErrMsg) (some cancelErrMsg)
         else GEvent.statusEv "completed" (some "All rows generated successfully")]

/-- Statuses the spec calls terminal. -/
def isTerminalStatus : GEvent → Bool
  | .statusEv st _ => st = "completed" || st = "cancelled" || st = "failed"
  | _ => false

/-- Progress events. -/
def isProgressEvent : GEvent → Bool
  | .progressEv _ => true
  | _ => false

/-! ## Example columns used by concrete statements -/

/-- A column whose rule carries a range-random token. -/
def ageColumn : Column :=
  ⟨some 7, "tbl", 1, "age", "INT", none, "age is @RANDOM_INT_18_65", 1⟩

/-- A plain text column. -/
def cityColumn : Column :=
  ⟨some 2, "tbl", 1, "city", "TEXT", none, "Generate a city", 2⟩

/-- A second plain text column. -/
def countryColumn : Column :=
  ⟨some 3, "tbl", 1, "country", "TEXT", none, "Generate a country", 3⟩

/-- The three columns of the topological-sort scenario, in the claim's input
order. -/
def fullNameCol : Column :=
  ⟨some 3, "test_table", 1, "full_name", "TEXT", none,
    "Generate full name using @first_name and @last_name", 3⟩

def firstNameCol : Column :=
  ⟨some 1, "test_table", 1, "first_name", "TEXT", none,
    "Generate a first name", 1⟩

def lastNameCol : Column :=
  ⟨some 2, "test_table", 1, "last_name", "TEXT", none,
    "Generate a last name", 2⟩

/-- Two columns referencing each other: a dependency cycle. -/
def cycColA : Column := ⟨some 1, "t", 1, "a", "TEXT", none, "see @b", 1⟩

def cycColB : Column := ⟨some 2, "t", 1, "b", "TEXT", none, "see @a", 2⟩

/-- A column referencing only itself, and one referencing an unknown name. -/
def selfRefCol : Column :=
  ⟨some 1, "t", 1, "a", "TEXT", none, "see @a twice: @a", 1⟩

def unknownRefCol : Column :=
  ⟨some 2, "t", 1, "b", "TEXT", none, "see @nothing_here", 2⟩

/-! ## Lemmas: the numeric scan (claim C8) -/

lemma numericScan_acc (matcher : Char → Bool) :
    ∀ (l acc : List Char), acc ≠ [] →
      numericScan matcher acc l = acc ++ l.takeWhile matcher := by
  intro l
  induction l with
  | nil => intro acc _; simp [numericScan]
  | cons c rest ih =>
    intro acc h
    by_cases hc : matcher c
    · rw [numericScan, if_pos hc, ih (acc ++ [c]) (by simp),
        List.takeWhile_cons, if_pos hc]
      simp
    · rw [numericScan, if_neg hc, List.takeWhile_cons, if_neg hc]
      simp [List.isEmpty_iff, h]

lemma numericScan_spec (matcher : Char → Bool) :
    ∀ l : List Char,
      numericScan matcher [] l =
        (l.dropWhile (fun c => !matcher c)).takeWhile matcher := by
  intro l
  induction l with
  | nil => simp [numericScan]
  | cons c rest ih =>
    by_cases hc : matcher c
    · rw [numericScan, if_pos hc]
      simp only [List.nil_append]
      rw [numericScan_acc matcher rest [c] (by simp), List.dropWhile_cons]
      simp [hc, List.takeWhile_cons]
    · rw [numericScan, if_neg hc, List.dropWhile_cons]
      simp only [List.isEmpty_nil, Bool.not_true, Bool.false_eq_true,
        if_false, hc, Bool.not_false, if_true]
      simpa using ih

/-- C8: the integer post-processor collects the first maximal run of
characters in the code's numeric class — Rust `char::is_numeric` together
with `.`, `-`, `+` (amended from the claim's ASCII-digit class) — parses it
as a double and rounds to nearest, returning 0 on parse failure; the input
`" Value: -42 years old "` yields `-42`. -/
theorem c8_integer_extraction :
    (∀ s : String,
      numericPart s =
        (s.data.dropWhile (fun c => !numericCharRust c)).takeWhile
          numericCharRust) ∧
    intFromResponse " Value: -42 years old " = -42 :=
  ⟨fun s => numericScan_spec numericCharRust s.data, by decide⟩

/-- C8 counterexample: on `"12¾"` (U+00BE is Unicode-numeric but not a
digit) the code's extraction collects `"12¾"`, fails the double parse and
returns 0, while the claim's digit-based procedure collects `"12"` and
returns 12. -/
theorem c8_counterexample :
    intFromResponse "12¾" = 0 ∧ claimIntFromResponse "12¾" = 12 ∧
      intFromResponse "12¾" ≠ claimIntFromResponse "12¾" :=
  ⟨by decide, by decide, by decide⟩

/-! ## Theorems for claim C9 (prompt template and persona) -/

set_option maxRecDepth 10000 in
/-- C9 counterexample: the template actually used by `prepare_prompt` is not
the literal given in the spec, and an assembled prompt does contain
`Perspective` text. -/
theorem c9_counterexample :
    cellPromptTemplate ≠ specPromptTemplate ∧
    strContains
      (preparePrompt [cityColumn] cityColumn [] [] [] "Balanced/neutral")
      "Perspective" = true :=
  ⟨by decide, by decide⟩

set_option maxRecDepth 10000 in
/-- C9 amended: the chat template is the `generation.rs` literal, which
carries a `Perspective: \x7bpersona\x7d` element, and for each of the five
personas the assembled prompt contains `Perspective: ` followed by that
persona. -/
theorem c9_persona_in_prompt :
    strContains cellPromptTemplate "Perspective: \x7bpersona\x7d" = true ∧
    personaList.all (fun p =>
      strContains (preparePrompt [cityColumn] cityColumn [] [] [] p)
        ("Perspective: " ++ p)) = true :=
  ⟨by decide, by decide⟩

/-! ## Lemmas and theorems for claim C1 (rule substitution) -/

lemma substRefsAux_congr (f g : String → String) :
    ∀ (fuel : Nat) (l : List Char),
      (∀ nm ∈ extractRefsAux fuel l, f nm = g nm) →
      substRefsAux f fuel l = substRefsAux g fuel l := by
  intro fuel
  induction fuel with
  | zero => intro l _; rfl
  | succ fu ih =>
    intro l h
    cases l with
    | nil => rfl
    | cons c rest =>
      simp only [substRefsAux, extractRefsAux] at h ⊢
      by_cases hc : c = '@'
      · simp only [if_pos hc] at h ⊢
        by_cases hrun : (rest.takeWhile isWordChar).isEmpty
        · simp only [if_pos hrun] at h ⊢
          rw [ih rest h]
        · simp only [if_neg hrun] at h ⊢
          rw [h _ (List.mem_cons_self _ _), ih _ (fun nm hnm =>
            h nm (List.mem_cons_of_mem _ hnm))]
      · simp only [if_neg hc] at h ⊢
        rw [ih rest h]

lemma lookup_eq_none_of_keys {k : String} :
    ∀ pairs : List (String × String), (∀ p ∈ pairs, p.1 ≠ k) →
      pairs.lookup k = none := by
  intro pairs
  induction pairs with
  | nil => intro _; rfl
  | cons q rest ih =>
    intro h
    have hq : (k == q.1) = false :=
      beq_eq_false_iff_ne.mpr
        (fun hkq => h q (List.mem_cons_self q rest) hkq.symm)
    simp only [List.lookup, hq]
    exact ih (fun p hp => h p (List.mem_cons_of_mem q hp))

lemma nameToValue_keys (columns : List Column) (row_data : List RowData) :
    ∀ p ∈ nameToValue columns row_data, ∃ col ∈ columns, p.1 = col.name := by
  intro p hp
  unfold nameToValue at hp
  obtain ⟨col, hcol, hbind⟩ := List.mem_filterMap.mp hp
  refine ⟨col, hcol, ?_⟩
  obtain ⟨i, hid, hmap⟩ := Option.bind_eq_some.mp hbind
  obtain ⟨v, hlk, hpv⟩ := Option.map_eq_some'.mp hmap
  rw [← hpv]

/-- C1 amended: `prepare_prompt` performs no range-random substitution pass:
`@RANDOM_INT_<a>_<b>` is matched by the single column-reference pass
`@(\w+)` and, whenever no column is actually named `RANDOM_INT_18_65`, the
token is replaced by the empty string — never by an integer. -/
theorem c1_no_random_substitution (columns : List Column)
    (row_data : List RowData)
    (h : ∀ col ∈ columns, col.name ≠ "RANDOM_INT_18_65") :
    processedRules columns row_data "age is @RANDOM_INT_18_65" = "age is " := by
  unfold processedRules substColumnRefs
  have hnone : hmLookup (nameToValue columns row_data) "RANDOM_INT_18_65" = none := by
    unfold hmLookup
    refine lookup_eq_none_of_keys _ (fun p hp => ?_)
    obtain ⟨col, hcol, hname⟩ :=
      nameToValue_keys columns row_data p (List.mem_reverse.mp hp)
    rw [hname]
    exact h col hcol
  rw [substRefsAux_congr _ (fun _ => "") _ _ (fun nm hnm => ?_)]
  · decide
  · have hex : extractRefsAux ("age is @RANDOM_INT_18_65".data.length + 1)
        "age is @RANDOM_INT_18_65".data = ["RANDOM_INT_18_65"] := by decide
    rw [hex] at hnm
    have : nm = "RANDOM_INT_18_65" := by simpa using hnm
    rw [this, hnone]
    rfl

/-- C1 counterexample: with the range-random rule `age is @RANDOM_INT_18_65`
and no prior cells, the processed rule is `"age is "` — no occurrence of the
token was replaced by an integer `v` with `18 ≤ v ≤ 65`. -/
theorem c1_counterexample :
    processedRules [ageColumn] [] ageColumn.rules = "age is " ∧
    ¬ ∃ v ∈ Finset.Icc (18 : Int) 65,
        processedRules [ageColumn] [] ageColumn.rules =
          "age is " ++ toString v :=
  ⟨by decide, by decide⟩

/-- C1 witness. -/
theorem c1_witness :
    processedRules [cityColumn] [] "age is @RANDOM_INT_18_65" = "age is " :=
  c1_no_random_substitution [cityColumn] [] (by decide)

end Sample01

namespace Sample01

/-! ## Lemmas and theorems for claims C2 and C3 (cancellation and events) -/

lemma genRowsLoop_shape (cells cancelAt : Nat) (sm : String) :
    ∀ (r i : Nat), ∃ m, m ≤ r ∧
      genRowsLoop cells cancelAt (fun _ => false) sm r i =
        ((List.range m).map (fun k => GEvent.progressEv (i + k + 1)),
          decide (m < r)) := by
  intro r
  induction r with
  | zero =>
    intro i
    exact ⟨0, Nat.le_refl 0, by simp [genRowsLoop]⟩
  | succ r ih =>
    intro i
    by_cases hcan : cancelAt ≤ i * cells
    · refine ⟨0, Nat.zero_le _, ?_⟩
      rw [genRowsLoop, if_pos hcan]
      simp
    · obtain ⟨m, hm, heq⟩ := ih (i + 1)
      refine ⟨m + 1, Nat.succ_le_succ hm, ?_⟩
      rw [genRowsLoop, if_neg hcan, heq]
      refine Prod.ext ?_ ?_
      · show GEvent.progressEv (i + 1) ::
          (List.range m).map (fun k => GEvent.progressEv (i + 1 + k + 1)) =
          (List.range (m + 1)).map (fun k => GEvent.progressEv (i + k + 1))
        rw [List.range_succ_eq_map, List.map_cons, List.map_map]
        refine congrArg₂ _ (by simp) ?_
        refine List.map_congr_left (fun a _ => ?_)
        show GEvent.progressEv (i + 1 + a + 1) = GEvent.progressEv (i + (a + 1) + 1)
        congr 1
        omega
      · show decide (m < r) = decide (m + 1 < r + 1)
        rw [decide_eq_decide]
        omega

lemma statusOfErr_cancel : statusOfErr cancelErrMsg = "cancelled" := rfl

/-- Terminal-status count of an assembled trace. -/
lemma countP_trace (m : Nat) (tEv : GEvent) (h : isTerminalStatus tEv = true) :
    (GEvent.statusEv "started" none ::
      ((List.range m).map (fun k => GEvent.progressEv (k + 1)) ++ [tEv])).countP
      isTerminalStatus = 1 := by
  have h0 : ((List.range m).map
      (fun k => GEvent.progressEv (k + 1))).countP isTerminalStatus = 0 :=
    List.countP_eq_zero.mpr (fun e he => by
      obtain ⟨k, _, hk⟩ := List.mem_map.mp he
      rw [← hk]
      simp [isTerminalStatus])
  have h1 : isTerminalStatus (GEvent.statusEv "started" none) = false := rfl
  rw [List.countP_cons, List.countP_append, h0, List.countP_cons,
    List.countP_nil, h, h1]
  simp

/-- C3 amended: in a session where every `add_row` call succeeds, the trace
is a `started` status, then progress events for rows `1, 2, …` in order,
then a single terminal status (`completed`, `cancelled`, or
`failed`-from-panic) which is the last event; exactly one terminal status is
emitted.  (When an `add_row` call fails, the worker's callback only emits a
`failed` status for that row and generation continues, so later progress and
status events can follow — see the counterexample.) -/
theorem c3_event_ordering :
    ∀ (cols : List Column) (target cancelAt : Nat) (sm pd : String),
      ∃ m tEv,
        runGenRows cols target cancelAt (fun _ => false) sm pd =
          GEvent.statusEv "started" none ::
            ((List.range m).map (fun k => GEvent.progressEv (k + 1)) ++ [tEv]) ∧
        isTerminalStatus tEv = true ∧
        (runGenRows cols target cancelAt (fun _ => false) sm pd).countP
          isTerminalStatus = 1 := by
  intro cols target cancelAt sm pd
  cases hs : sortIndices cols with
  | error e =>
    have htr : runGenRows cols target cancelAt (fun _ => false) sm pd =
        GEvent.statusEv "started" none ::
          ((List.range 0).map (fun k => GEvent.progressEv (k + 1)) ++
            [GEvent.statusEv "failed" (some ("Task panicked: " ++ pd))]) := by
      unfold runGenRows
      rw [hs]
      rfl
    exact ⟨0, _, htr, rfl, htr ▸ countP_trace 0 _ rfl⟩
  | ok idxs =>
    obtain ⟨m, hm, heq⟩ := genRowsLoop_shape cols.length cancelAt sm target 0
    simp only [Nat.zero_add] at heq
    have hterm : isTerminalStatus
        (if decide (m < target) = true then
          GEvent.statusEv (statusOfErr cancelErrMsg) (some cancelErrMsg)
        else GEvent.statusEv "completed"
          (some "All rows generated successfully")) = true := by
      by_cases hmt : decide (m < target) = true
      · rw [if_pos hmt, statusOfErr_cancel]; rfl
      · rw [if_neg hmt]; rfl
    have htr : runGenRows cols target cancelAt (fun _ => false) sm pd =
        GEvent.statusEv "started" none ::
          ((List.range m).map (fun k => GEvent.progressEv (k + 1)) ++
            [if decide (m < target) = true then
              GEvent.statusEv (statusOfErr cancelErrMsg) (some cancelErrMsg)
            else GEvent.statusEv "completed"
              (some "All rows generated successfully")]) := by
      unfold runGenRows
      rw [hs, heq]
    exact ⟨m, _, htr, hterm, htr ▸ countP_trace m _ hterm⟩

end Sample01

namespace Sample01

/-- C3 counterexample: with target 2 and `add_row` failing on the first row
only, the trace is `started`, a `failed` status, a progress event, then a
`completed` status: two terminal statuses are emitted, and both a progress
event and a status event follow the `failed` status. -/
theorem c3_counterexample :
    runGenRows [cityColumn, countryColumn] 2 1000 (fun i => i == 0)
        "Database error: row write failed" "jd" =
      [GEvent.statusEv "started" none,
       GEvent.statusEv "failed" (some "Database error: row write failed"),
       GEvent.progressEv 2,
       GEvent.statusEv "completed" (some "All rows generated successfully")] ∧
    (runGenRows [cityColumn, countryColumn] 2 1000 (fun i => i == 0)
        "Database error: row write failed" "jd").countP isTerminalStatus = 2 :=
  ⟨by decide, by decide⟩

lemma ceil_le_iff {cells : Nat} (i cancelAt : Nat) (hc : 0 < cells) :
    (cancelAt + cells - 1) / cells ≤ i ↔ cancelAt ≤ i * cells := by
  rw [Nat.div_le_iff_le_mul_add_pred hc, Nat.mul_comm]
  generalize i * cells = t
  omega

/-- C2 amended: the cancel flag is polled only between rows, never between
cells; with `cells` cells per row (`0 < cells`) and a cancel request arriving
after `cancelAt` cells have completed, the loop persists exactly
`min target ⌈cancelAt / cells⌉` rows — the row in progress at the cancel
instant always completes in full — and reports cancellation exactly when
`⌈cancelAt / cells⌉ < target`; consequently at most one more row than was
persisted at the cancel instant (`cancelAt / cells`, capped) is persisted.
A cancel arriving during the final row is never observed and the session
completes (see the counterexample). -/
theorem c2_cancellation_granularity (cells cancelAt target : Nat)
    (sm : String) (hc : 0 < cells) :
    genRowsLoop cells cancelAt (fun _ => false) sm target 0 =
      ((List.range (min target ((cancelAt + cells - 1) / cells))).map
          (fun k => GEvent.progressEv (k + 1)),
        decide ((cancelAt + cells - 1) / cells < target)) ∧
    min target ((cancelAt + cells - 1) / cells) ≤ cancelAt / cells + 1 := by
  constructor
  · have main : ∀ (r i : Nat),
        genRowsLoop cells cancelAt (fun _ => false) sm r i =
          ((List.range (min r ((cancelAt + cells - 1) / cells - i))).map
              (fun k => GEvent.progressEv (i + k + 1)),
            decide ((cancelAt + cells - 1) / cells - i < r)) := by
      intro r
      induction r with
      | zero =>
        intro i
        simp [genRowsLoop]
      | succ r ih =>
        intro i
        by_cases hcan : cancelAt ≤ i * cells
        · have hK : (cancelAt + cells - 1) / cells - i = 0 :=
            Nat.sub_eq_zero_of_le ((ceil_le_iff i cancelAt hc).mpr hcan)
          rw [genRowsLoop, if_pos hcan, hK]
          simp
        · have hiK : i < (cancelAt + cells - 1) / cells := by
            by_contra hle
            exact hcan ((ceil_le_iff i cancelAt hc).mp (Nat.le_of_not_lt hle))
          rw [genRowsLoop, if_neg hcan, ih (i + 1)]
          refine Prod.ext ?_ ?_
          · show GEvent.progressEv (i + 1) ::
              (List.range (min r ((cancelAt + cells - 1) / cells - (i + 1)))).map
                (fun k => GEvent.progressEv (i + 1 + k + 1)) =
              (List.range (min (r + 1) ((cancelAt + cells - 1) / cells - i))).map
                (fun k => GEvent.progressEv (i + k + 1))
            have hmin : min (r + 1) ((cancelAt + cells - 1) / cells - i) =
                min r ((cancelAt + cells - 1) / cells - (i + 1)) + 1 := by
              omega
            rw [hmin, List.range_succ_eq_map, List.map_cons, List.map_map]
            refine congrArg₂ _ (by simp) ?_
            refine List.map_congr_left (fun a _ => ?_)
            show GEvent.progressEv (i + 1 + a + 1) =
              GEvent.progressEv (i + (a + 1) + 1)
            congr 1
            omega
          · show decide ((cancelAt + cells - 1) / cells - (i + 1) < r) =
              decide ((cancelAt + cells - 1) / cells - i < r + 1)
            rw [decide_eq_decide]
            omega
    have h0 := main target 0
    simpa using h0
  · have hK : (cancelAt + cells - 1) / cells ≤ cancelAt / cells + 1 := by
      have h1 : cancelAt + cells - 1 ≤ cancelAt + cells := by omega
      calc (cancelAt + cells - 1) / cells ≤ (cancelAt + cells) / cells :=
            Nat.div_le_div_right h1
        _ = cancelAt / cells + 1 := Nat.add_div_right cancelAt hc
    exact le_trans (Nat.min_le_right _ _) hK

/-- C2 witness. -/
theorem c2_witness :
    genRowsLoop 2 7 (fun _ => false) "" 10 0 =
      ((List.range (min 10 ((7 + 2 - 1) / 2))).map
          (fun k => GEvent.progressEv (k + 1)),
        decide ((7 + 2 - 1) / 2 < 10)) ∧
    min 10 ((7 + 2 - 1) / 2) ≤ 7 / 2 + 1 :=
  c2_cancellation_granularity 2 7 10 "" (by decide)

/-- C2 counterexample: target 1 with two cells per row and a cancel request
arriving after the first cell (so before the row's second cell and while 0
rows are persisted): the row still completes both cells, is persisted, and
the terminal status is `completed`, not `cancelled` — the flag was never
polled between the cells. -/
theorem c2_counterexample :
    runGenRows [cityColumn, countryColumn] 1 1 (fun _ => false) "" "jd" =
      [GEvent.statusEv "started" none,
       GEvent.progressEv 1,
       GEvent.statusEv "completed" (some "All rows generated successfully")] ∧
    (runGenRows [cityColumn, countryColumn] 1 1 (fun _ => false) "" "jd").countP
      (fun e => e == GEvent.statusEv "cancelled" (some cancelErrMsg)) = 0 :=
  ⟨by decide, by decide⟩

end Sample01

namespace Sample01

/-! ## Kahn's algorithm: invariants (claims C4, C5, C10)

The loop state of `sortIndices` is analysed through the invariant `KahnInv`
below: the in-degree vector always counts the edges whose dependency has not
been output yet, the output and queue never repeat a node, every output or
queued node has all its dependencies output (in output order), and every
node whose in-degree reached zero has been output or queued. -/

/-- Edges into `j` whose dependency is not yet in `out`. -/
def remDeg (edges : List (Nat × Nat)) (out : List Nat) (j : Nat) : Nat :=
  edges.countP (fun e => decide (e.2 = j ∧ e.1 ∉ out))

/-- Well-formedness of the edge list of `colEdges`: endpoints in range and
no self-edges. -/
def EdgesWf (edges : List (Nat × Nat)) (n : Nat) : Prop :=
  ∀ e ∈ edges, e.1 < n ∧ e.2 < n ∧ e.1 ≠ e.2

/-- The loop invariant of `kahnLoop`. -/
structure KahnInv (edges : List (Nat × Nat)) (n : Nat) (deg : Nat → Int)
    (queue out : List Nat) : Prop where
  degEq : ∀ j, deg j = (remDeg edges out j : Int)
  nodup : (out ++ queue).Nodup
  outClosed : ∀ e ∈ edges, e.2 ∈ out → [e.1, e.2].Sublist out
  queueClosed : ∀ e ∈ edges, e.2 ∈ queue → e.1 ∈ out
  bounded : ∀ x ∈ out ++ queue, x < n
  zeroIn : ∀ j, j < n → deg j = 0 → j ∈ out ++ queue

lemma processDeps_fst :
    ∀ (deps : List Nat) (deg : Nat → Int) (queue : List Nat) (j : Nat),
      (processDeps deps deg queue).1 j = deg j - (deps.count j : Int) := by
  intro deps
  induction deps with
  | nil => intro deg queue j; simp [processDeps]
  | cons d rest ih =>
    intro deg queue j
    rw [processDeps]
    rw [ih]
    by_cases hj : j = d
    · subst hj
      rw [Function.update_same, List.count_cons_self]
      push_cast
      ring
    · rw [Function.update_noteq hj, List.count_cons_of_ne hj]

lemma processDeps_snd_append :
    ∀ (deps : List Nat) (deg : Nat → Int) (queue : List Nat),
      (processDeps deps deg queue).2 = queue ++ (processDeps deps deg []).2 := by
  intro deps
  induction deps with
  | nil => intro deg queue; simp [processDeps]
  | cons d rest ih =>
    intro deg queue
    rw [processDeps, processDeps]
    by_cases hc : Function.update deg d (deg d - 1) d = 0
    · rw [if_pos hc, if_pos hc, ih _ (queue ++ [d]), ih _ ([] ++ [d])]
      simp
    · rw [if_neg hc, if_neg hc, ih _ queue]

lemma processDeps_cons (d : Nat) (rest : List Nat) (deg : Nat → Int)
    (queue : List Nat) :
    processDeps (d :: rest) deg queue =
      processDeps rest (Function.update deg d (deg d - 1))
        (if deg d - 1 = 0 then queue ++ [d] else queue) := by
  rw [processDeps, Function.update_same]

lemma processDeps_pushed_count :
    ∀ (deps : List Nat) (deg : Nat → Int) (j : Nat),
      ((processDeps deps deg []).2).count j =
        if 1 ≤ deg j ∧ deg j ≤ (deps.count j : Int) then 1 else 0 := by
  intro deps
  induction deps with
  | nil =>
    intro deg j
    rw [processDeps]
    rw [if_neg (by simp; omega)]
    rfl
  | cons d rest ih =>
    intro deg j
    rw [processDeps_cons, processDeps_snd_append, List.count_append, ih]
    by_cases hj : j = d
    · subst hj
      rw [Function.update_same, List.count_cons_self]
      by_cases hc : deg j - 1 = 0
      · rw [if_pos hc]
        have h1 : (([] : List Nat) ++ [j]).count j = 1 := by simp
        rw [h1, if_neg (by omega), if_pos (by push_cast; omega)]
      · rw [if_neg hc]
        have h0 : (([] : List Nat)).count j = 0 := rfl
        rw [h0, Nat.zero_add]
        by_cases h1 : 1 ≤ deg j - 1 ∧ deg j - 1 ≤ (rest.count j : Int)
        · rw [if_pos h1, if_pos (by push_cast at h1 ⊢; omega)]
        · rw [if_neg h1, if_neg (by push_cast at h1 ⊢; omega)]
    · rw [Function.update_noteq hj, List.count_cons_of_ne hj]
      have hz : (if deg d - 1 = 0 then ([] : List Nat) ++ [d] else []).count j
          = 0 := by
        split_ifs
        · exact List.count_eq_zero.mpr (by simp [hj])
        · rfl
      rw [hz, Nat.zero_add]

lemma processDeps_pushed_nodup (deps : List Nat) (deg : Nat → Int) :
    ((processDeps deps deg []).2).Nodup :=
  List.nodup_iff_count_le_one.mpr (fun a => by
    rw [processDeps_pushed_count]
    split_ifs <;> omega)

lemma processDeps_pushed_mem {deps : List Nat} {deg : Nat → Int} {j : Nat} :
    j ∈ (processDeps deps deg []).2 ↔
      (1 ≤ deg j ∧ deg j ≤ (deps.count j : Int)) := by
  rw [← List.count_pos_iff, processDeps_pushed_count]
  split_ifs with h
  · exact iff_of_true (by omega) h
  · exact iff_of_false (by omega) h

lemma remDeg_append_single {out : List Nat} {d : Nat}
    (edges : List (Nat × Nat)) (j : Nat) (hd : d ∉ out) :
    remDeg edges out j =
      remDeg edges (out ++ [d]) j +
        edges.countP (fun e => decide (e.1 = d ∧ e.2 = j)) := by
  induction edges with
  | nil => rfl
  | cons e t ih =>
    unfold remDeg at ih ⊢
    have hsplit : (if decide (e.2 = j ∧ e.1 ∉ out) then 1 else 0) =
        (if decide (e.2 = j ∧ e.1 ∉ out ++ [d]) then 1 else 0) +
        (if decide (e.1 = d ∧ e.2 = j) then (1 : Nat) else 0) := by
      by_cases h2 : e.2 = j
      · by_cases h1 : e.1 = d
        · have ho : e.1 ∉ out := h1 ▸ hd
          simp [h2, h1, ho, hd]
        · by_cases ho : e.1 ∈ out
          · simp [h2, h1, ho]
          · simp [h2, h1, ho]
      · simp [h2]
    rw [List.countP_cons, List.countP_cons, List.countP_cons, ih, hsplit]
    omega

lemma revDeps_count (edges : List (Nat × Nat)) (d j : Nat) :
    (revDepsOf edges d).count j =
      edges.countP (fun e => decide (e.1 = d ∧ e.2 = j)) := by
  unfold revDepsOf
  rw [List.count, List.countP_map, List.countP_filter]
  refine List.countP_congr (fun e _ => ?_)
  simp only [Function.comp_apply, Bool.and_eq_true, beq_iff_eq,
    decide_eq_true_eq]
  constructor
  · rintro ⟨h2, h1⟩; exact ⟨h1, h2⟩
  · rintro ⟨h1, h2⟩; exact ⟨h2, h1⟩

lemma revDeps_mem {edges : List (Nat × Nat)} {d x : Nat}
    (hx : x ∈ revDepsOf edges d) : ∃ e ∈ edges, e.1 = d ∧ e.2 = x := by
  unfold revDepsOf at hx
  obtain ⟨e, he, hex⟩ := List.mem_map.mp hx
  obtain ⟨he2, hefil⟩ := List.mem_filter.mp he
  exact ⟨e, he2, by simpa using hefil, hex⟩

lemma remDeg_eq_zero_iff {edges : List (Nat × Nat)} {out : List Nat}
    {j : Nat} :
    remDeg edges out j = 0 ↔ ∀ e ∈ edges, e.2 = j → e.1 ∈ out := by
  unfold remDeg
  rw [List.countP_eq_zero]
  constructor
  · intro h e he h2
    by_contra hout
    exact h e he (by simp [h2, hout])
  · intro h e he
    simp only [decide_eq_true_eq]
    rintro ⟨h2, hno⟩
    exact hno (h e he h2)

end Sample01

namespace Sample01

lemma kahn_step {edges : List (Nat × Nat)} {n : Nat} {deg : Nat → Int}
    {d : Nat} {qs out : List Nat}
    (hwf : EdgesWf edges n)
    (inv : KahnInv edges n deg (d :: qs) out) :
    KahnInv edges n (processDeps (revDepsOf edges d) deg qs).1
      (processDeps (revDepsOf edges d) deg qs).2 (out ++ [d]) := by
  have hnd := inv.nodup
  have hd_out : d ∉ out := by
    intro h
    rw [List.nodup_append] at hnd
    exact hnd.2.2 h (List.mem_cons_self d qs)
  have hqueue_deg : ∀ j ∈ d :: qs, deg j = 0 := by
    intro j hj
    rw [inv.degEq j]
    have h0 : remDeg edges out j = 0 :=
      remDeg_eq_zero_iff.mpr (fun e he h2 => inv.queueClosed e he (h2 ▸ hj))
    rw [h0]
    rfl
  have hout_deg : ∀ j ∈ out, deg j = 0 := by
    intro j hj
    rw [inv.degEq j]
    have h0 : remDeg edges out j = 0 :=
      remDeg_eq_zero_iff.mpr (fun e he h2 =>
        (inv.outClosed e he (h2 ▸ hj)).subset (List.mem_cons_self _ _))
    rw [h0]
    rfl
  have hdeg' : ∀ j, (processDeps (revDepsOf edges d) deg qs).1 j =
      (remDeg edges (out ++ [d]) j : Int) := by
    intro j
    rw [processDeps_fst, inv.degEq j, revDeps_count,
      remDeg_append_single edges j hd_out]
    push_cast
    ring
  have hqueue' : (processDeps (revDepsOf edges d) deg qs).2 =
      qs ++ (processDeps (revDepsOf edges d) deg []).2 :=
    processDeps_snd_append _ _ _
  set pushed := (processDeps (revDepsOf edges d) deg []).2 with hpushdef
  have hpush_mem : ∀ j, j ∈ pushed ↔
      (1 ≤ deg j ∧ deg j ≤ ((revDepsOf edges d).count j : Int)) :=
    fun j => processDeps_pushed_mem
  have hcnt_le : ∀ j, ((revDepsOf edges d).count j : Int) ≤ deg j := by
    intro j
    rw [inv.degEq j, revDeps_count]
    have h := remDeg_append_single edges j hd_out
    omega
  have hpush_notold : ∀ j ∈ pushed, j ∉ out ∧ j ∉ d :: qs := by
    intro j hj
    have h1 := (hpush_mem j).mp hj
    constructor
    · intro hmem
      have := hout_deg j hmem
      omega
    · intro hmem
      have := hqueue_deg j hmem
      omega
  have hpush_deg0 : ∀ j ∈ pushed,
      (processDeps (revDepsOf edges d) deg qs).1 j = 0 := by
    intro j hj
    obtain ⟨ha, hb⟩ := (hpush_mem j).mp hj
    rw [processDeps_fst]
    have := hcnt_le j
    omega
  have hpush_bound : ∀ j ∈ pushed, j < n := by
    intro j hj
    obtain ⟨ha, hb⟩ := (hpush_mem j).mp hj
    have hpos : 0 < (revDepsOf edges d).count j := by
      by_contra hz
      have hz0 : (revDepsOf edges d).count j = 0 := by omega
      rw [hz0] at hb
      push_cast at hb
      omega
    have hmem : j ∈ revDepsOf edges d := List.count_pos_iff.mp hpos
    obtain ⟨e, he, _, h2⟩ := revDeps_mem hmem
    exact h2 ▸ (hwf e he).2.1
  refine ⟨hdeg', ?_, ?_, ?_, ?_, ?_⟩
  · rw [hqueue']
    have hrearr : (out ++ [d]) ++ (qs ++ pushed) =
        ((out ++ [d]) ++ qs) ++ pushed := by
      simp [List.append_assoc]
    rw [hrearr, List.nodup_append]
    refine ⟨?_, processDeps_pushed_nodup _ _, ?_⟩
    · rw [← List.append_cons]
      exact hnd
    · intro a ha hb
      obtain ⟨h1, h2⟩ := hpush_notold a hb
      rcases List.mem_append.mp ha with h | h
      · rcases List.mem_append.mp h with h | h
        · exact h1 h
        · refine h2 ?_
          have : a = d := by simpa using h
          simp [this]
      · exact h2 (List.mem_cons_of_mem _ h)
  · intro e he hmem
    rcases List.mem_append.mp hmem with h | h
    · exact (inv.outClosed e he h).trans (List.sublist_append_left _ _)
    · have hd2 : e.2 = d := by simpa using h
      have h1 : e.1 ∈ out := inv.queueClosed e he
        (by rw [hd2]; exact List.mem_cons_self d qs)
      rw [hd2]
      exact (List.singleton_sublist.mpr h1).append (List.Sublist.refl [d])
  · rw [hqueue']
    intro e he hmem
    rcases List.mem_append.mp hmem with h | h
    · exact List.mem_append_left _
        (inv.queueClosed e he (List.mem_cons_of_mem _ h))
    · have h0 := hpush_deg0 _ h
      rw [hdeg' e.2] at h0
      have hz : remDeg edges (out ++ [d]) e.2 = 0 := by exact_mod_cast h0
      exact remDeg_eq_zero_iff.mp hz e he rfl
  · rw [hqueue']
    intro x hx
    rcases List.mem_append.mp hx with h | h
    · rcases List.mem_append.mp h with h | h
      · exact inv.bounded x (List.mem_append_left _ h)
      · have : x = d := by simpa using h
        exact this ▸ inv.bounded d
          (List.mem_append_right _ (List.mem_cons_self _ _))
    · rcases List.mem_append.mp h with h | h
      · exact inv.bounded x
          (List.mem_append_right _ (List.mem_cons_of_mem _ h))
      · exact hpush_bound x h
  · rw [hqueue']
    intro j hjn hj0
    rw [processDeps_fst] at hj0
    by_cases hcnt : (revDepsOf edges d).count j = 0
    · have hdeg0 : deg j = 0 := by
        rw [hcnt] at hj0
        push_cast at hj0
        omega
      have hh := inv.zeroIn j hjn hdeg0
      rcases List.mem_append.mp hh with h | h
      · exact List.mem_append_left _ (List.mem_append_left _ h)
      · rcases List.mem_cons.mp h with h | h
        · exact List.mem_append_left _ (List.mem_append_right _ (by simp [h]))
        · exact List.mem_append_right _ (List.mem_append_left _ h)
    · have heq : deg j = ((revDepsOf edges d).count j : Int) := by omega
      have hmem : j ∈ pushed := (hpush_mem j).mpr ⟨by
          rw [heq]
          exact_mod_cast Nat.one_le_iff_ne_zero.mpr hcnt,
        le_of_eq heq⟩
      exact List.mem_append_right _ (List.mem_append_right _ hmem)

end Sample01

namespace Sample01

lemma inv_length_le {edges : List (Nat × Nat)} {n : Nat} {deg : Nat → Int}
    {queue out : List Nat} (inv : KahnInv edges n deg queue out) :
    (out ++ queue).length ≤ n := by
  have hsub : (out ++ queue) ⊆ List.range n := fun x hx =>
    List.mem_range.mpr (inv.bounded x hx)
  have h := (inv.nodup.subperm hsub).length_le
  simpa using h

lemma kahn_run {edges : List (Nat × Nat)} {n : Nat} (hwf : EdgesWf edges n) :
    ∀ (fuel : Nat) (deg : Nat → Int) (queue out : List Nat),
      KahnInv edges n deg queue out → n < out.length + fuel →
      ∃ degF, KahnInv edges n degF []
        (kahnLoop (revDepsOf edges) fuel deg queue out) := by
  intro fuel
  induction fuel with
  | zero =>
    intro deg queue out inv hlt
    exfalso
    have h1 := inv_length_le inv
    rw [List.length_append] at h1
    omega
  | succ fuel ih =>
    intro deg queue out inv hlt
    cases queue with
    | nil => exact ⟨deg, inv⟩
    | cons d qs =>
      have hstep := kahn_step hwf inv
      have hrw : kahnLoop (revDepsOf edges) (fuel + 1) deg (d :: qs) out =
          kahnLoop (revDepsOf edges) fuel
            (processDeps (revDepsOf edges d) deg qs).1
            (processDeps (revDepsOf edges d) deg qs).2 (out ++ [d]) := rfl
      rw [hrw]
      refine ih _ _ _ hstep ?_
      rw [List.length_append]
      simp only [List.length_singleton]
      omega

lemma kahn_init (edges : List (Nat × Nat)) (n : Nat) :
    KahnInv edges n (initDeg edges) (initQueue edges n) [] := by
  refine ⟨?_, ?_, ?_, ?_, ?_, ?_⟩
  · intro j
    unfold initDeg remDeg
    congr 1
    refine List.countP_congr (fun e _ => ?_)
    simp
  · simpa using List.Nodup.filter _ (List.nodup_range n)
  · intro e _ h
    cases h
  · intro e he h
    exfalso
    obtain ⟨_, hz⟩ := List.mem_filter.mp h
    have hz2 : initDeg edges e.2 = 0 := by simpa using hz
    unfold initDeg at hz2
    have hc : edges.countP (fun e2 => e2.2 == e.2) = 0 := by exact_mod_cast hz2
    have hcc := List.countP_eq_zero.mp hc e he
    simp at hcc
  · intro x hx
    simp only [List.nil_append] at hx
    exact List.mem_range.mp (List.mem_filter.mp hx).1
  · intro j hj h0
    simp only [List.nil_append]
    refine List.mem_filter.mpr ⟨List.mem_range.mpr hj, ?_⟩
    simpa using h0

lemma colEdges_wf (cols : List Column) : EdgesWf (colEdges cols) cols.length := by
  intro e he
  unfold colEdges at he
  obtain ⟨i, hi, he2⟩ := List.mem_flatMap.mp he
  obtain ⟨nm, _, hfm⟩ := List.mem_filterMap.mp he2
  cases hlk : lookupLastIdx cols nm with
  | none =>
    simp only [hlk] at hfm
    cases hfm
  | some d =>
    simp only [hlk] at hfm
    by_cases hdi : d ≠ i
    · rw [if_pos hdi] at hfm
      cases hfm
      refine ⟨?_, List.mem_range.mp hi, hdi⟩
      unfold lookupLastIdx at hlk
      have hmem := List.mem_of_find?_eq_some hlk
      exact List.mem_range.mp (List.mem_reverse.mp hmem)
    · rw [if_neg hdi] at hfm
      cases hfm

/-- Running `sortIndices` on a nonempty input reaches a queue-exhausted
state satisfying the invariant; the result is `ok` exactly when that state
output all the columns. -/
theorem sortIndices_spec (cols : List Column) :
    ∃ deg out, KahnInv (colEdges cols) cols.length deg [] out ∧
      sortIndices cols =
        (if out.length = cols.length then Except.ok out
         else Except.error cycleErrMsg) := by
  by_cases hemp : cols.isEmpty
  · have hnil : cols = [] := List.isEmpty_iff.mp hemp
    subst hnil
    exact ⟨initDeg (colEdges []), [], kahn_init _ _, rfl⟩
  · obtain ⟨degF, hinvF⟩ := kahn_run (colEdges_wf cols)
      (cols.length + (colEdges cols).length + 1) (initDeg (colEdges cols))
      (initQueue (colEdges cols) cols.length) [] (kahn_init _ _)
      (by simp only [List.length_nil]; omega)
    refine ⟨degF, _, hinvF, ?_⟩
    unfold sortIndices
    rw [if_neg hemp]

end Sample01

namespace Sample01

lemma final_perm {edges : List (Nat × Nat)} {n : Nat} {deg : Nat → Int}
    {out : List Nat} (inv : KahnInv edges n deg [] out)
    (hlen : out.length = n) : out.Perm (List.range n) := by
  have hnd : out.Nodup := by simpa using inv.nodup
  have hsub : out ⊆ List.range n := fun x hx =>
    List.mem_range.mpr (inv.bounded x (by simpa using hx))
  exact (hnd.subperm hsub).perm_of_length_le (by simp [hlen])

lemma sublist_pair_indexOf {a b : Nat} :
    ∀ {l : List Nat}, l.Nodup → [a, b].Sublist l →
      l.indexOf a < l.indexOf b := by
  intro l
  induction l with
  | nil =>
    intro _ h
    rw [List.sublist_nil] at h
    cases h
  | cons c t ih =>
    intro hnd h
    rw [List.nodup_cons] at hnd
    cases h with
    | cons _ h2 =>
      have hmema : a ∈ t := h2.subset (by simp)
      have hmemb : b ∈ t := h2.subset (by simp)
      have hca : c ≠ a := fun hh => hnd.1 (hh ▸ hmema)
      have hcb : c ≠ b := fun hh => hnd.1 (hh ▸ hmemb)
      rw [List.indexOf_cons_ne _ hca, List.indexOf_cons_ne _ hcb]
      have := ih hnd.2 h2
      omega
    | cons₂ _ h2 =>
      have hmemb : b ∈ t := h2.subset (by simp)
      have hab : a ≠ b := fun hh => hnd.1 (hh ▸ hmemb)
      rw [List.indexOf_cons_self, List.indexOf_cons_ne _ hab]
      omega

lemma acyclic_of_final {edges : List (Nat × Nat)} {n : Nat} {deg : Nat → Int}
    {out : List Nat} (hwf : EdgesWf edges n)
    (inv : KahnInv edges n deg [] out) (hlen : out.length = n) :
    ∀ v, ¬ Relation.TransGen (fun a b => (a, b) ∈ edges) v v := by
  have hperm := final_perm inv hlen
  have hnd : out.Nodup := by simpa using inv.nodup
  have hidx : ∀ a b, Relation.TransGen (fun a b => (a, b) ∈ edges) a b →
      out.indexOf a < out.indexOf b := by
    intro a b h
    induction h with
    | single he =>
      have hmem : _ ∈ out := hperm.mem_iff.mpr
        (List.mem_range.mpr (hwf _ he).2.1)
      exact sublist_pair_indexOf hnd (inv.outClosed _ he hmem)
    | tail hab hbc ih =>
      have hmem : _ ∈ out := hperm.mem_iff.mpr
        (List.mem_range.mpr (hwf _ hbc).2.1)
      exact lt_trans ih (sublist_pair_indexOf hnd (inv.outClosed _ hbc hmem))
  intro v hv
  exact absurd (hidx v v hv) (lt_irrefl _)

lemma cycle_of_final_incomplete {edges : List (Nat × Nat)} {n : Nat}
    {deg : Nat → Int} {out : List Nat} (hwf : EdgesWf edges n)
    (inv : KahnInv edges n deg [] out) (hlen : out.length ≠ n) :
    ∃ v, Relation.TransGen (fun a b => (a, b) ∈ edges) v v := by
  have hex : ∃ j, j < n ∧ j ∉ out := by
    by_contra hno
    push_neg at hno
    have hsub : List.range n ⊆ out := fun x hx => hno x (List.mem_range.mp hx)
    have h1 := ((List.nodup_range n).subperm hsub).length_le
    have h2 : (out ++ ([] : List Nat)).length ≤ n := inv_length_le inv
    simp at h1 h2
    omega
  have hstep : ∀ j, j < n → j ∉ out →
      ∃ d2, d2 < n ∧ d2 ∉ out ∧ (d2, j) ∈ edges := by
    intro j hj hjo
    have hdeg : deg j ≠ 0 := by
      intro h0
      exact hjo (by simpa using inv.zeroIn j hj h0)
    have hrem : remDeg edges out j ≠ 0 := by
      intro h0
      exact hdeg (by rw [inv.degEq j, h0]; rfl)
    rw [Ne, remDeg_eq_zero_iff] at hrem
    push_neg at hrem
    obtain ⟨e, he, h2, h1⟩ := hrem
    refine ⟨e.1, (hwf e he).1, h1, ?_⟩
    rw [← h2]
    exact he
  obtain ⟨j0, hj0n, hj0o⟩ := hex
  have hstepS : ∀ x : {x : Nat // x < n ∧ x ∉ out},
      ∃ y : {x : Nat // x < n ∧ x ∉ out}, (y.1, x.1) ∈ edges := by
    intro x
    obtain ⟨d2, h1, h2, h3⟩ := hstep x.1 x.2.1 x.2.2
    exact ⟨⟨d2, h1, h2⟩, h3⟩
  choose f hf using hstepS
  have hchain : ∀ k m : Nat,
      Relation.TransGen (fun a b => (a, b) ∈ edges)
        ((f^[k + m + 1] ⟨j0, hj0n, hj0o⟩).1)
        ((f^[k] ⟨j0, hj0n, hj0o⟩).1) := by
    intro k m
    induction m with
    | zero =>
      refine Relation.TransGen.single ?_
      rw [show k + 0 + 1 = k + 1 from rfl, Function.iterate_succ_apply']
      exact hf _
    | succ m ihm =>
      refine Relation.TransGen.head ?_ ihm
      rw [show k + (m + 1) + 1 = (k + m + 1) + 1 from by omega,
        Function.iterate_succ_apply']
      exact hf _
  have hmaps : ∀ k ∈ Finset.range (n + 1),
      (f^[k] ⟨j0, hj0n, hj0o⟩).1 ∈ Finset.range n :=
    fun k _ => Finset.mem_range.mpr (f^[k] ⟨j0, hj0n, hj0o⟩).2.1
  obtain ⟨x, hx, y, hy, hxy, hfeq⟩ :=
    Finset.exists_ne_map_eq_of_card_lt_of_maps_to (by simp) hmaps
  rcases Nat.lt_or_ge x y with hlt2 | hge
  · refine ⟨(f^[x] ⟨j0, hj0n, hj0o⟩).1, ?_⟩
    have hc := hchain x (y - x - 1)
    rw [show x + (y - x - 1) + 1 = y from by omega] at hc
    rw [← hfeq] at hc
    exact hc
  · have hlt3 : y < x := lt_of_le_of_ne hge (fun hh => hxy hh.symm)
    refine ⟨(f^[y] ⟨j0, hj0n, hj0o⟩).1, ?_⟩
    have hc := hchain y (x - y - 1)
    rw [show y + (x - y - 1) + 1 = x from by omega] at hc
    rw [hfeq] at hc
    exact hc

end Sample01

namespace Sample01

/-- Soundness: an `ok` result is a permutation of the indices in an order
compatible with every edge, and the reference graph is acyclic. -/
theorem sortIndices_ok_spec {cols : List Column} {l : List Nat}
    (h : sortIndices cols = .ok l) :
    l.Perm (List.range cols.length) ∧
    (∀ e ∈ colEdges cols, [e.1, e.2].Sublist l) ∧ Acyclic cols := by
  obtain ⟨deg, out, inv, heq⟩ := sortIndices_spec cols
  rw [h] at heq
  by_cases hlen : out.length = cols.length
  · rw [if_pos hlen] at heq
    cases heq
    refine ⟨final_perm inv hlen, ?_, ?_⟩
    · intro e he
      have hmem : e.2 ∈ l := (final_perm inv hlen).mem_iff.mpr
        (List.mem_range.mpr ((colEdges_wf cols) e he).2.1)
      exact inv.outClosed e he hmem
    · intro v
      exact acyclic_of_final (colEdges_wf cols) inv hlen v
  · rw [if_neg hlen] at heq
    cases heq

/-- Completeness combined with soundness: the sort errors exactly on cyclic
reference graphs, and the error is always the cycle message. -/
theorem sortIndices_err_iff (cols : List Column) :
    sortIndices cols = .error cycleErrMsg ↔
      ∃ v, Relation.TransGen (edgeRel cols) v v := by
  constructor
  · intro herr
    obtain ⟨deg, out, inv, heq⟩ := sortIndices_spec cols
    rw [herr] at heq
    by_cases hlen : out.length = cols.length
    · rw [if_pos hlen] at heq
      cases heq
    · exact cycle_of_final_incomplete (colEdges_wf cols) inv hlen
  · rintro ⟨v, hv⟩
    cases hok : sortIndices cols with
    | ok l => exact absurd hv ((sortIndices_ok_spec hok).2.2 v)
    | error m =>
      obtain ⟨deg, out, inv, heq⟩ := sortIndices_spec cols
      rw [hok] at heq
      by_cases hlen : out.length = cols.length
      · rw [if_pos hlen] at heq
        cases heq
      · rw [if_neg hlen] at heq
        cases heq
        rfl

/-- The only error `sortIndices` produces is the cycle message. -/
lemma sortIndices_err_msg {cols : List Column} {m : String}
    (h : sortIndices cols = .error m) : m = cycleErrMsg := by
  obtain ⟨deg, out, inv, heq⟩ := sortIndices_spec cols
  rw [h] at heq
  by_cases hlen : out.length = cols.length
  · rw [if_pos hlen] at heq
    cases heq
  · rw [if_neg hlen] at heq
    cases heq
    rfl

lemma range_map_getD (l : List Column) :
    (List.range l.length).map (fun i => l.getD i default) = l := by
  apply List.ext_getElem (by simp)
  intro i h1 h2
  simp only [List.getElem_map, List.getElem_range]
  exact List.getD_eq_getElem l default h2

/-- C4: for every column list with an acyclic reference graph the sorter
returns a permutation of the input in which every resolvable `@name`
dependency precedes its dependent, and on the scenario columns (input order
`full_name, first_name, last_name`) it returns
`first_name, last_name, full_name`, the tie between the two independent
columns broken by input order. -/
theorem c4_topological_sort :
    (∀ cols : List Column, Acyclic cols →
      ∃ idxs, sortIndices cols = .ok idxs ∧
        idxs.Perm (List.range cols.length) ∧
        (∀ e ∈ colEdges cols, [e.1, e.2].Sublist idxs) ∧
        sortColumnsByDependency cols =
          .ok (idxs.map (fun i => cols.getD i default)) ∧
        (idxs.map (fun i => cols.getD i default)).Perm cols) ∧
    sortColumnsByDependency [fullNameCol, firstNameCol, lastNameCol] =
      .ok [firstNameCol, lastNameCol, fullNameCol] := by
  constructor
  · intro cols hacyc
    cases hok : sortIndices cols with
    | error m =>
      exfalso
      rw [sortIndices_err_msg hok] at hok
      obtain ⟨v, hv⟩ := (sortIndices_err_iff cols).mp hok
      exact hacyc v hv
    | ok idxs =>
      obtain ⟨hperm, htopo, _⟩ := sortIndices_ok_spec hok
      refine ⟨idxs, rfl, hperm, htopo, ?_, ?_⟩
      · unfold sortColumnsByDependency
        rw [hok]
        rfl
      · have hmap := hperm.map (fun i => cols.getD i default)
        rw [range_map_getD cols] at hmap
        exact hmap
  · rfl

/-- C4 witness. -/
theorem c4_witness :
    ∃ idxs, sortIndices [fullNameCol, firstNameCol, lastNameCol] = .ok idxs ∧
      idxs.Perm (List.range
        ([fullNameCol, firstNameCol, lastNameCol] : List Column).length) ∧
      (∀ e ∈ colEdges [fullNameCol, firstNameCol, lastNameCol],
        [e.1, e.2].Sublist idxs) ∧
      sortColumnsByDependency [fullNameCol, firstNameCol, lastNameCol] =
        .ok (idxs.map (fun i =>
          ([fullNameCol, firstNameCol, lastNameCol] : List Column).getD i
            default)) ∧
      (idxs.map (fun i =>
        ([fullNameCol, firstNameCol, lastNameCol] : List Column).getD i
          default)).Perm [fullNameCol, firstNameCol, lastNameCol] :=
  c4_topological_sort.1 [fullNameCol, firstNameCol, lastNameCol]
    (sortIndices_ok_spec
      (show sortIndices [fullNameCol, firstNameCol, lastNameCol] =
        .ok [1, 2, 0] from rfl)).2.2

/-- C5: the sorter fails — always with the cycle-detected message — exactly
when the resolvable cross-references between distinct columns contain a
cycle; self-references and references to unknown names induce no edge (by
construction of `colEdges`) and never cause failure, as the concrete
self-reference/unknown-reference example shows, while the two-column cycle
fails. -/
theorem c5_cycle_detection :
    (∀ cols : List Column,
      (sortColumnsByDependency cols = .error cycleErrMsg ↔
        ∃ v, Relation.TransGen (edgeRel cols) v v) ∧
      (∀ m, sortColumnsByDependency cols = .error m → m = cycleErrMsg)) ∧
    sortColumnsByDependency [selfRefCol, unknownRefCol] =
      .ok [selfRefCol, unknownRefCol] ∧
    sortColumnsByDependency [cycColA, cycColB] = .error cycleErrMsg := by
  have herr_iff : ∀ (cols : List Column) (m : String),
      sortColumnsByDependency cols = .error m ↔ sortIndices cols = .error m := by
    intro cols m
    unfold sortColumnsByDependency
    cases sortIndices cols <;> simp [Except.map]
  refine ⟨fun cols => ⟨?_, ?_⟩, rfl, rfl⟩
  · exact (herr_iff cols cycleErrMsg).trans (sortIndices_err_iff cols)
  · intro m hm
    exact sortIndices_err_msg ((herr_iff cols m).mp hm)

/-- C10: when the column set contains a dependency cycle, `generate` does
not return a `GenerationError` — the `expect` on the sorter result panics —
and the worker surfaces the join error as a single `failed` status whose
message begins with `Task panicked`. -/
theorem c10_cycle_panics (cols : List Column) (v : Nat)
    (target cancelAt : Nat) (fails : Nat → Bool) (sm pd : String)
    (h : Relation.TransGen (edgeRel cols) v v) :
    generateResult cols target cancelAt = .panicked ∧
    (∀ msg, generateResult cols target cancelAt ≠ .retErr msg) ∧
    runGenRows cols target cancelAt fails sm pd =
      [GEvent.statusEv "started" none,
       GEvent.statusEv "failed" (some ("Task panicked: " ++ pd))] ∧
    "Task panicked".data.isPrefixOf ("Task panicked: " ++ pd).data = true := by
  have herr : sortIndices cols = .error cycleErrMsg :=
    (sortIndices_err_iff cols).mpr ⟨v, h⟩
  refine ⟨?_, ?_, ?_, ?_⟩
  · unfold generateResult
    rw [herr]
  · intro msg
    unfold generateResult
    rw [herr]
    intro hcon
    cases hcon
  · unfold runGenRows
    rw [herr]
  · rw [List.isPrefixOf_iff_prefix, String.data_append]
    refine ⟨": ".data ++ pd.data, ?_⟩
    rw [← List.append_assoc]
    rfl

/-- C10 witness. -/
theorem c10_witness :
    generateResult [cycColA, cycColB] 3 99 = .panicked ∧
    (∀ msg, generateResult [cycColA, cycColB] 3 99 ≠ .retErr msg) ∧
    runGenRows [cycColA, cycColB] 3 99 (fun _ => false) "" "join error" =
      [GEvent.statusEv "started" none,
       GEvent.statusEv "failed" (some ("Task panicked: " ++ "join error"))] ∧
    "Task panicked".data.isPrefixOf
      ("Task panicked: " ++ "join error").data = true :=
  by
    have e01 : edgeRel [cycColA, cycColB] 0 1 := by decide
    have e10 : edgeRel [cycColA, cycColB] 1 0 := by decide
    exact c10_cycle_panics [cycColA, cycColB] 0 3 99 (fun _ => false) ""
      "join error" (Relation.TransGen.head e01 (Relation.TransGen.single e10))

end Sample01

namespace Sample01

/-- C5 witness. -/
theorem c5_witness :
    (sortColumnsByDependency [cycColA, cycColB] = .error cycleErrMsg ↔
      ∃ v, Relation.TransGen (edgeRel [cycColA, cycColB]) v v) ∧
    cycleErrMsg = cycleErrMsg :=
  ⟨(c5_cycle_detection.1 [cycColA, cycColB]).1,
    (c5_cycle_detection.1 [cycColA, cycColB]).2 cycleErrMsg rfl⟩

/-! ## Lemmas and theorems for claim C6 (text-cleanup idempotence) -/

lemma dropWhile_head_false (p : Char → Bool) :
    ∀ (l : List Char) (c : Char), (l.dropWhile p).head? = some c →
      p c = false := by
  intro l
  induction l with
  | nil =>
    intro c h
    cases h
  | cons a t ih =>
    intro c h
    rw [List.dropWhile_cons] at h
    by_cases hp : p a
    · rw [if_pos hp] at h
      exact ih c h
    · rw [if_neg hp] at h
      cases h
      simpa using hp

lemma dropWhile_idem (p : Char → Bool) (l : List Char) :
    (l.dropWhile p).dropWhile p = l.dropWhile p := by
  cases hh : l.dropWhile p with
  | nil => rfl
  | cons c t =>
    have hc : p c = false := dropWhile_head_false p l c (by rw [hh]; rfl)
    rw [List.dropWhile_cons, if_neg (by simp [hc])]

lemma trimStartL_idem (l : List Char) :
    trimStartL (trimStartL l) = trimStartL l := dropWhile_idem _ l

lemma trimEndL_idem (l : List Char) : trimEndL (trimEndL l) = trimEndL l := by
  unfold trimEndL
  rw [List.reverse_reverse, dropWhile_idem]

lemma trimEndL_prefix (l : List Char) : (trimEndL l).IsPrefix l := by
  have h := List.dropWhile_suffix (l := l.reverse) (p := rustIsWhitespace)
  have h2 := List.reverse_prefix.mpr h
  rwa [List.reverse_reverse] at h2

lemma trimStartL_trimL (l : List Char) :
    trimStartL (trimL l) = trimL l := by
  unfold trimL
  cases hh : trimEndL (trimStartL l) with
  | nil => rfl
  | cons c t =>
    obtain ⟨suf, hsuf⟩ := trimEndL_prefix (trimStartL l)
    rw [hh] at hsuf
    have hhd : (trimStartL l).head? = some c := by
      rw [← hsuf]
      rfl
    have hc : rustIsWhitespace c = false :=
      dropWhile_head_false rustIsWhitespace l c hhd
    show List.dropWhile rustIsWhitespace (c :: t) = c :: t
    rw [List.dropWhile_cons, if_neg (by simp [hc])]

lemma trimEndL_trimL (l : List Char) : trimEndL (trimL l) = trimL l :=
  trimEndL_idem _

lemma trimL_idem (l : List Char) : trimL (trimL l) = trimL l := by
  conv_lhs => rw [trimL, trimStartL_trimL, trimEndL_trimL]

lemma trimEndMatchesL_id {pat l : List Char} {fuel : Nat}
    (h : pat.isSuffixOf l = false) : trimEndMatchesL pat fuel l = l := by
  cases fuel with
  | zero => rfl
  | succ f => rw [trimEndMatchesL, if_neg (by simp [h])]

lemma trimStartMatchesL_id {pat l : List Char} {fuel : Nat}
    (h : pat.isPrefixOf l = false) : trimStartMatchesL pat fuel l = l := by
  cases fuel with
  | zero => rfl
  | succ f => rw [trimStartMatchesL, if_neg (by simp [h])]

lemma cleanLoop_id {l : List Char} {fuel : Nat} (h : cleanLoopStep l = l) :
    cleanLoop fuel l = l := by
  cases fuel with
  | zero => rfl
  | succ f => simp [cleanLoop, h]

lemma cleanL_trimmed (l : List Char) :
    trimL (cleanTextArtifactsL l) = cleanTextArtifactsL l := by
  unfold cleanTextArtifactsL
  exact trimL_idem _

lemma mk_data (l : List Char) : (String.mk l).data = l := rfl

/-- C6 amended: `clean_text_artifacts` is idempotent on every input whose
cleaned form retains no leading or trailing artifact token (fence, escaped
quote, escape sequence) and does not start with a quote character; in
general it is not idempotent, because quote unwrapping runs after artifact
stripping and can expose a trailing or leading artifact that only a second
application removes (see the counterexample). -/
theorem c6_clean_conditional_idempotent (x : String)
    (h1 : "```".data.isSuffixOf (cleanTextArtifacts x).data = false)
    (h2 : "\\\"".data.isSuffixOf (cleanTextArtifacts x).data = false)
    (h3 : "\\n".data.isSuffixOf (cleanTextArtifacts x).data = false)
    (h4 : "\n".data.isSuffixOf (cleanTextArtifacts x).data = false)
    (h5 : "\\r".data.isSuffixOf (cleanTextArtifacts x).data = false)
    (h6 : "\r".data.isSuffixOf (cleanTextArtifacts x).data = false)
    (h7 : "```".data.isPrefixOf (cleanTextArtifacts x).data = false)
    (h8 : "\\\"".data.isPrefixOf (cleanTextArtifacts x).data = false)
    (h9 : (cleanTextArtifacts x).data.head? ≠ some dquoteChar)
    (h10 : (cleanTextArtifacts x).data.head? ≠ some squoteChar) :
    cleanTextArtifacts (cleanTextArtifacts x) = cleanTextArtifacts x := by
  simp only [cleanTextArtifacts, mk_data] at h1 h2 h3 h4 h5 h6 h7 h8 h9 h10 ⊢
  refine congrArg String.mk ?_
  set y := cleanTextArtifactsL x.data with hy
  have htr : trimL y = y := cleanL_trimmed x.data
  have hts : trimStartL y = y := by
    conv_lhs => rw [← htr, trimStartL_trimL, htr]
  have hte : trimEndL y = y := by
    conv_lhs => rw [← htr, trimEndL_trimL, htr]
  have hpass : ∀ pat : List Char, pat.isSuffixOf y = false →
      trimEndPass pat y = y := by
    intro pat h
    unfold trimEndPass
    rw [trimEndMatchesL_id h, hte]
  have hstep : cleanLoopStep y = y := by
    unfold cleanLoopStep
    rw [hpass _ h1, hpass _ h2, hpass _ h3, hpass _ h4, hpass _ h5,
      hpass _ h6]
  have hfs : cleanFenceStartStage y = y := by
    unfold cleanFenceStartStage
    rw [trimStartMatchesL_id h7, hts]
  have hes : cleanEscqStartStage y = y := by
    unfold cleanEscqStartStage
    rw [trimStartMatchesL_id h8, hts]
  have hqs : cleanQuoteStage y = y := by
    unfold cleanQuoteStage
    rw [if_neg (by rintro (⟨hc, _⟩ | ⟨hc, _⟩); exacts [h9 hc, h10 hc]),
      if_neg (by rintro (hc | hc); exacts [h9 hc, h10 hc])]
  show cleanTextArtifactsL y = y
  unfold cleanTextArtifactsL
  rw [htr, cleanLoop_id hstep, hfs, hes, hqs, htr]

/-- C6 counterexample: unwrapping the symmetric quotes of the input
`"abc```"` exposes a trailing fence, so a second application cleans
further: the first application yields `abc``` `, the second `abc`. -/
theorem c6_counterexample :
    cleanTextArtifacts "\"abc```\"" = "abc```" ∧
    cleanTextArtifacts (cleanTextArtifacts "\"abc```\"") = "abc" ∧
    cleanTextArtifacts (cleanTextArtifacts "\"abc```\"") ≠
      cleanTextArtifacts "\"abc```\"" :=
  ⟨by decide, by decide, by decide⟩

/-- C6 witness. -/
theorem c6_witness :
    cleanTextArtifacts (cleanTextArtifacts "hello world") =
      cleanTextArtifacts "hello world" :=
  c6_clean_conditional_idempotent "hello world" (by decide) (by decide)
    (by decide) (by decide) (by decide) (by decide) (by decide) (by decide)
    (by decide) (by decide)

/-! ## C7: the JSON repair stage on already-delimited balanced input -/

lemma replaceAllAux_head_notMem (p : Char) (pr rep : List Char)
    (fuel : Nat) : ∀ l : List Char, p ∉ l →
    replaceAllAux (p :: pr) rep fuel l = l := by
  induction fuel with
  | zero => intro l _; rfl
  | succ n ih =>
    intro l h
    cases l with
    | nil => rfl
    | cons c rest =>
      simp only [List.mem_cons, not_or] at h
      obtain ⟨hc, hr⟩ := h
      simp [replaceAllAux, List.isPrefixOf, beq_eq_false_iff_ne.mpr hc,
        ih rest hr]

lemma firstIdx_head (p : Char → Bool) (c : Char) (l : List Char)
    (h : l.head? = some c) (hp : p c = true) : firstIdx p l = some 0 := by
  cases l with
  | nil => cases h
  | cons a rest =>
    simp only [List.head?, Option.some.injEq] at h
    subst h
    simp [firstIdx, hp]

lemma rfindIdx_getLast (c : Char) (l : List Char)
    (h : l.getLast? = some c) : rfindIdx c l = some (l.length - 1) := by
  have hh : l.reverse.head? = some c := by
    rw [List.head?_reverse]; exact h
  unfold rfindIdx
  rw [firstIdx_head _ c _ hh (by simp)]
  simp

lemma jsonCore_id (o c : Char) (l : List Char)
    (hoc : (o = openBrace ∧ c = closeBrace) ∨ (o = '[' ∧ c = ']'))
    (hh : l.head? = some o) (hl : l.getLast? = some c)
    (hcnt : l.count o = l.count c) :
    jsonCore l = l := by
  have hp : (o == openBrace || o == '[') = true := by
    rcases hoc with ⟨rfl, _⟩ | ⟨rfl, _⟩ <;> simp [openBrace]
  have hfi : firstIdx (fun x => x == openBrace || x == '[') l = some 0 :=
    firstIdx_head _ o l hh hp
  have hne : l ≠ [] := by intro he; rw [he] at hh; cases hh
  have hgd : l.getD 0 ' ' = o := by
    cases l with
    | nil => cases hh
    | cons a rest =>
      simp only [List.head?, Option.some.injEq] at hh
      simp [hh]
  have hlen : l.length - 1 + 1 = l.length :=
    Nat.succ_pred_eq_of_pos (List.length_pos.mpr hne)
  rcases hoc with ⟨rfl, rfl⟩ | ⟨rfl, rfl⟩
  · simp only [jsonCore, hfi, hgd, if_pos rfl, ite_true, List.drop_zero]
    rw [rfindIdx_getLast closeBrace l hl]
    simp only [hlen, List.take_length, hcnt, sub_self]
    simp
  · have hno : ('[' : Char) ≠ openBrace := by decide
    simp only [jsonCore, hfi, hgd, if_neg hno, ite_false, List.drop_zero]
    rw [rfindIdx_getLast ']' l hl]
    simp only [hlen, List.take_length, hcnt, sub_self]
    simp

/-- C7 amended: the repair stage of `generate_json` is the identity on every
response whose trimmed content starts with its opening bracket, ends with
the matching closing bracket, has equally many raw opener and closer
characters, and contains no backtick; so the extracted string parses to the
same value as the trimmed input, with nothing appended or prepended.  For
unrestricted valid JSON the claim fails: the fence `str::replace` deletes
backtick runs inside string literals (see the counterexample), and the raw
bracket counts also see brackets inside string literals. -/
theorem c7_json_repair_noop (s : String)
    (h0 : btickChar ∉ (rustTrim s).data)
    (hdel : ((rustTrim s).data.head? = some openBrace ∧
        (rustTrim s).data.getLast? = some closeBrace ∧
        (rustTrim s).data.count openBrace = (rustTrim s).data.count closeBrace) ∨
      ((rustTrim s).data.head? = some '[' ∧
        (rustTrim s).data.getLast? = some ']' ∧
        (rustTrim s).data.count '[' = (rustTrim s).data.count ']')) :
    jsonExtract s = rustTrim s ∧
    json5Parse (jsonExtract s) = json5Parse (rustTrim s) := by
  simp only [rustTrim, mk_data] at h0 hdel
  have hfj : "```json".data = btickChar :: "``json".data := rfl
  have hf3 : "```".data = btickChar :: "``".data := rfl
  have h1 : replaceAllAux "```json".data []
      ((trimL s.data).length + 1) (trimL s.data) = trimL s.data := by
    rw [hfj]; exact replaceAllAux_head_notMem _ _ _ _ _ h0
  have h2 : replaceAllAux "```".data []
      ((trimL s.data).length + 1) (trimL s.data) = trimL s.data := by
    rw [hf3]; exact replaceAllAux_head_notMem _ _ _ _ _ h0
  have heq : jsonExtract s = rustTrim s := by
    unfold jsonExtract rustTrim
    rw [h1, h2, trimL_idem]
    rcases hdel with ⟨hh, hl, hc⟩ | ⟨hh, hl, hc⟩
    · rw [jsonCore_id openBrace closeBrace _ (Or.inl ⟨rfl, rfl⟩) hh hl hc]
    · rw [jsonCore_id '[' ']' _ (Or.inr ⟨rfl, rfl⟩) hh hl hc]
  exact ⟨heq, by rw [heq]⟩

/-- C7 witness: on the already-trimmed balanced object text the repair
stage changes nothing. -/
theorem c7_witness :
    btickChar ∉ (rustTrim "\x7b\"a\":1\x7d").data ∧
    jsonExtract "\x7b\"a\":1\x7d" = rustTrim "\x7b\"a\":1\x7d" :=
  ⟨by decide,
    (c7_json_repair_noop "\x7b\"a\":1\x7d" (by decide)
      (Or.inl ⟨by decide, by decide, by decide⟩)).1⟩

/-- C7 counterexample: the object text holding the string value made of
three backticks is trimmed, balanced and valid, yet the fence deletion
erases the backticks, so extraction is not a no-op and the extracted string
parses to a different value. -/
theorem c7_counterexample :
    rustTrim "\x7b\"a\":\"```\"\x7d" = "\x7b\"a\":\"```\"\x7d" ∧
    json5Parse "\x7b\"a\":\"```\"\x7d" =
      some (JsonVal.jobj [("a", JsonVal.jstr "```")]) ∧
    jsonExtract "\x7b\"a\":\"```\"\x7d" = "\x7b\"a\":\"\"\x7d" ∧
    json5Parse (jsonExtract "\x7b\"a\":\"```\"\x7d") ≠
      json5Parse (rustTrim "\x7b\"a\":\"```\"\x7d") := by
  refine ⟨rfl, rfl, rfl, ?_⟩
  intro h
  have e1 : json5Parse (jsonExtract "\x7b\"a\":\"```\"\x7d") =
      some (JsonVal.jobj [("a", JsonVal.jstr "")]) := rfl
  have e2 : json5Parse (rustTrim "\x7b\"a\":\"```\"\x7d") =
      some (JsonVal.jobj [("a", JsonVal.jstr "```")]) := rfl
  rw [e1, e2] at h
  simp only [Option.some.injEq, JsonVal.jobj.injEq, List.cons.injEq,
    Prod.mk.injEq, JsonVal.jstr.injEq, and_true, true_and] at h
  exact absurd h (by decide)

end Sample01
